import Mathlib

/-!
Shallow embedding of the inpainting core of `src/processor.js`
(`InpaintProcessor.process`), together with proofs of the specification
claims about it.

Modelling conventions:
* An `ImageData` is a width, a height and a byte buffer.  A buffer
  (JS `Uint8ClampedArray`) is modelled as a length together with a total
  function `ℕ → ℕ`; reads outside the length yield 0 (in JS they yield
  `undefined`, and the only out-of-range reads the algorithm can perform
  are the mask tests `mask[ni+3] > 0`, where `undefined > 0` and `0 > 0`
  are both `false`); writes outside the length are dropped, as for a JS
  typed array; every stored value is clamped to 255.
* The statement `data[p.i] = r / count` stores an IEEE double into a
  `Uint8ClampedArray`, which rounds to the nearest integer with ties to
  even.  For the sums and counts produced here (count ≤ 8, sum ≤ 2040)
  the double division is exact enough that the stored byte is exactly
  the round-half-to-even of the rational `r / count`; this is `rheDiv`.
-/

namespace Inpaint

/-- A JS `Uint8ClampedArray`: a length and the stored bytes.  Reads past
the end give 0, writes past the end are dropped, stored values clamp at
255. -/
structure Buf where
  size : ℕ
  val : ℕ → ℕ

/-- Read a byte; out-of-range reads give 0 (see module comment). -/
def Buf.get (b : Buf) (i : ℕ) : ℕ :=
  if i < b.size then b.val i else 0

/-- Write a byte; out-of-range writes are dropped, values clamp at 255. -/
def Buf.set (b : Buf) (i v : ℕ) : Buf :=
  if i < b.size then ⟨b.size, Function.update b.val i (min v 255)⟩ else b

/-- Build a buffer from a list of bytes. -/
def bufOfList (l : List ℕ) : Buf :=
  ⟨l.length, fun i => l.getD i 0⟩

/-- A DOM `ImageData`: width, height and the RGBA byte buffer. -/
structure ImageData where
  width : ℕ
  height : ℕ
  data : Buf

/-- The damaged-pixel records built by the scan loop of `process`
(`{ x, y, i, solved: false }`). -/
structure DP where
  x : ℕ
  y : ℕ
  i : ℕ
  solved : Bool
deriving DecidableEq

/-- The scan loop of `process` (lines 27-36): row-major walk of the grid,
one record per pixel whose mask alpha is positive. -/
def scanDamaged (w h : ℕ) (mask : Buf) : List DP :=
  (List.range h).flatMap (fun y => (List.range w).filterMap (fun x =>
    let i := (y * w + x) * 4
    if 0 < mask.get (i + 3) then some ⟨x, y, i, false⟩ else none))

/-- The accumulator `r, g, b, count` of the 8-neighbour loop. -/
structure Acc where
  r : ℕ
  g : ℕ
  b : ℕ
  count : ℕ
deriving DecidableEq

/-- The neighbour offsets `(dx, dy)` visited by the 8-neighbour loop of
`process` (dy outer from -1 to 1, dx inner from -1 to 1, skipping (0,0)). -/
def offsets : List (ℤ × ℤ) :=
  [(-1,-1),(0,-1),(1,-1),(-1,0),(1,0),(-1,1),(0,1),(1,1)]

/-- One step of the 8-neighbour loop (lines 56-76): skip out-of-bounds
offsets, skip masked pixels, otherwise add the RGB channels and bump
`count`. -/
def neighStep (w h : ℕ) (data mask : Buf) (px py : ℕ) (acc : Acc) (o : ℤ × ℤ) : Acc :=
  let nx : ℤ := (px : ℤ) + o.1
  let ny : ℤ := (py : ℤ) + o.2
  if 0 ≤ nx ∧ nx < (w : ℤ) ∧ 0 ≤ ny ∧ ny < (h : ℤ) then
    let ni : ℕ := (ny.toNat * w + nx.toNat) * 4
    if 0 < mask.get (ni + 3) then acc
    else ⟨acc.r + data.get ni, acc.g + data.get (ni + 1), acc.b + data.get (ni + 2),
          acc.count + 1⟩
  else acc

/-- The full 8-neighbour accumulation for the pixel at `(px, py)`. -/
def neighAccum (w h : ℕ) (data mask : Buf) (px py : ℕ) : Acc :=
  offsets.foldl (neighStep w h data mask px py) ⟨0, 0, 0, 0⟩

/-- `s / c` rounded to the nearest integer with ties to even: the byte a
`Uint8ClampedArray` stores for the JS expression `s / c` (0 ≤ s ≤ 255*c,
0 < c ≤ 8). -/
def rheDiv (s c : ℕ) : ℕ :=
  if 2 * (s % c) < c then s / c
  else if c < 2 * (s % c) then s / c + 1
  else if (s / c) % 2 = 0 then s / c else s / c + 1

/-- Result of one pass over the working list: the updated pixel buffer,
the updated records, and the `solvedThisPass` list in push order. -/
structure PassResult where
  data : Buf
  dps : List DP
  solved : List DP

/-- One pass of the solver (lines 48-88): walk the records in order, skip
solved ones, average the currently valid 8-neighbours, and when at least
one neighbour contributed overwrite the pixel (RGB = rounded mean, alpha
= 255), flip `solved` and push onto `solvedThisPass`.  The mask is only
read, never written, during a pass. -/
def runPass (w h : ℕ) (mask data : Buf) (dps : List DP) : PassResult :=
  match dps with
  | [] => ⟨data, [], []⟩
  | p :: rest =>
    if p.solved then
      let res := runPass w h mask data rest
      ⟨res.data, p :: res.dps, res.solved⟩
    else
      let a := neighAccum w h data mask p.x p.y
      if 0 < a.count then
        let data' := ((((data.set p.i (rheDiv a.r a.count)).set (p.i + 1)
          (rheDiv a.g a.count)).set (p.i + 2) (rheDiv a.b a.count)).set (p.i + 3) 255)
        let p' : DP := ⟨p.x, p.y, p.i, true⟩
        let res := runPass w h mask data' rest
        ⟨res.data, p' :: res.dps, p' :: res.solved⟩
      else
        let res := runPass w h mask data rest
        ⟨res.data, p :: res.dps, res.solved⟩

/-- Commit step of the convergence controller (lines 91-94): clear the
mask alpha of every pixel solved this pass. -/
def commitMask (solved : List DP) (mask : Buf) : Buf :=
  solved.foldl (fun m sp => m.set (sp.i + 3) 0) mask

/-- Final state of the pass loop: both buffers, the record list, the
`remaining` counter and the leftover `maxIterations` fuel. -/
structure LoopResult where
  data : Buf
  mask : Buf
  dps : List DP
  remaining : ℕ
  iterLeft : ℕ

/-- The `while (remaining > 0 && maxIterations-- > 0)` loop (lines 45-97):
run a pass, clear the mask alphas of the pixels it solved, decrement
`remaining` once per solved pixel, and stop on `remaining == 0`, on an
empty pass (the stuck break) or on fuel exhaustion. -/
def passLoop (w h : ℕ) (data mask : Buf) (dps : List DP) (remaining fuel : ℕ) :
    LoopResult :=
  match fuel, remaining with
  | f, 0 => ⟨data, mask, dps, 0, f⟩
  | 0, r + 1 => ⟨data, mask, dps, r + 1, 0⟩
  | f + 1, r + 1 =>
    let res := runPass w h mask data dps
    let mask' := commitMask res.solved mask
    let remaining' := r + 1 - res.solved.length
    if res.solved.length = 0 then ⟨res.data, mask', res.dps, remaining', f⟩
    else passLoop w h res.data mask' res.dps remaining' f

/-- Everything `process` leaves behind: the returned (mutated) image, the
mutated mask, and the internal `remaining` and `maxIterations` counters,
exposed for specification purposes. -/
structure ProcessResult where
  image : ImageData
  maskOut : ImageData
  remaining : ℕ
  iterLeft : ℕ

/-- `InpaintProcessor.process` (lines 17-102): scan the mask using the
dimensions of the PIXEL buffer (the dimensions of the mask argument are
never read), then run the bounded diffusion loop with a safety cap of
500 iterations.  Both buffers are mutated in place in JS; here the
mutated buffers are returned. -/
def process (imageData maskData : ImageData) : ProcessResult :=
  let width := imageData.width
  let height := imageData.height
  let dps := scanDamaged width height maskData.data
  let res := passLoop width height imageData.data maskData.data dps dps.length 500
  ⟨{ imageData with data := res.data }, { maskData with data := res.mask },
   res.remaining, res.iterLeft⟩

/-! ### Basic buffer lemmas -/

theorem Buf.size_set (b : Buf) (i v : ℕ) : (b.set i v).size = b.size := by
  unfold Buf.set; split <;> rfl

theorem Buf.get_set_self (b : Buf) {i : ℕ} (v : ℕ) (h : i < b.size) :
    (b.set i v).get i = min v 255 := by
  simp [Buf.set, Buf.get, h]

theorem Buf.get_set_ne (b : Buf) {i j : ℕ} (v : ℕ) (h : j ≠ i) :
    (b.set i v).get j = b.get j := by
  unfold Buf.set Buf.get
  split
  · simp [Function.update_noteq h]
  · rfl

theorem Buf.lt_size_of_get_pos (b : Buf) {i : ℕ} (h : 0 < b.get i) : i < b.size := by
  by_contra hc
  simp [Buf.get, hc] at h

/-! ### Rounding lemmas -/

theorem rheDiv_le_255 {s c : ℕ} (hc : 0 < c) (hs : s ≤ 255 * c) : rheDiv s c ≤ 255 := by
  unfold rheDiv
  have hmod := Nat.div_add_mod s c
  have hrlt : s % c < c := Nat.mod_lt _ hc
  have hq : s / c ≤ 255 := by
    by_contra hgt
    push_neg at hgt
    have h1 : 256 * c ≤ (s / c) * c := Nat.mul_le_mul_right c hgt
    have h2 : (s / c) * c ≤ s := Nat.div_mul_le_self s c
    omega
  have hq254 : 0 < s % c → s / c ≤ 254 := by
    intro hr
    by_contra hgt
    push_neg at hgt
    have hq255 : s / c = 255 := by omega
    rw [hq255] at hmod
    omega
  split_ifs with h1 h2 h3 <;> omega

/-! ### Pass-loop unfolding lemmas -/

theorem passLoop_rem_zero (w h : ℕ) (d m : Buf) (dps : List DP) (f : ℕ) :
    passLoop w h d m dps 0 f = ⟨d, m, dps, 0, f⟩ := by
  cases f <;> rfl

theorem passLoop_fuel_zero (w h : ℕ) (d m : Buf) (dps : List DP) (r : ℕ) :
    passLoop w h d m dps r 0 = ⟨d, m, dps, r, 0⟩ := by
  cases r <;> rfl

theorem passLoop_step (w h : ℕ) (d m : Buf) (dps : List DP) {r f : ℕ}
    (hr : 0 < r) (hf : 0 < f) :
    passLoop w h d m dps r f =
      (let res := runPass w h m d dps
       let mask' := commitMask res.solved m
       let remaining' := r - res.solved.length
       if res.solved.length = 0 then ⟨res.data, mask', res.dps, remaining', f - 1⟩
       else passLoop w h res.data mask' res.dps remaining' (f - 1)) := by
  obtain ⟨r', rfl⟩ : ∃ r', r = r' + 1 := ⟨r - 1, by omega⟩
  obtain ⟨f', rfl⟩ : ∃ f', f = f' + 1 := ⟨f - 1, by omega⟩
  rfl

/-! ### Neighbour-accumulation lemmas -/

theorem foldl_neighStep_allMasked (w h : ℕ) (d m : Buf) (px py : ℕ)
    (hall : ∀ x y, x < w → y < h → 0 < m.get ((y * w + x) * 4 + 3)) :
    ∀ (ol : List (ℤ × ℤ)) (acc : Acc),
      ol.foldl (neighStep w h d m px py) acc = acc := by
  intro ol
  induction ol with
  | nil => intro acc; rfl
  | cons o rest ih =>
    intro acc
    rw [List.foldl_cons]
    have hstep : neighStep w h d m px py acc o = acc := by
      unfold neighStep
      dsimp only
      split
      · next hb =>
        obtain ⟨h1, h2, h3, h4⟩ := hb
        have hx : ((px : ℤ) + o.1).toNat < w := (Int.toNat_lt h1).mpr h2
        have hy : ((py : ℤ) + o.2).toNat < h := (Int.toNat_lt h3).mpr h4
        have := hall _ _ hx hy
        simp only [this, if_pos]
      · rfl
    rw [hstep, ih]

theorem neighAccum_allMasked (w h : ℕ) (d m : Buf) (px py : ℕ)
    (hall : ∀ x y, x < w → y < h → 0 < m.get ((y * w + x) * 4 + 3)) :
    neighAccum w h d m px py = ⟨0, 0, 0, 0⟩ :=
  foldl_neighStep_allMasked w h d m px py hall offsets ⟨0, 0, 0, 0⟩

/-! ### Stuck-pass lemma -/

theorem runPass_stuck (w h : ℕ) (m d : Buf) (dps : List DP)
    (hc : ∀ p ∈ dps, p.solved = false → (neighAccum w h d m p.x p.y).count = 0) :
    runPass w h m d dps = ⟨d, dps, []⟩ := by
  induction dps with
  | nil => rfl
  | cons p rest ih =>
    have ihr : runPass w h m d rest = ⟨d, rest, []⟩ :=
      ih (fun q hq => hc q (List.mem_cons_of_mem _ hq))
    cases hp : p.solved with
    | true => simp [runPass, hp, ihr]
    | false =>
      have hcount := hc p (List.mem_cons_self _ _) hp
      simp [runPass, hp, hcount, ihr]

/-! ### Scan lemmas -/

/-- One row of the scan loop (the inner `x` loop for a fixed `y`). -/
def rowScan (w y : ℕ) (m : Buf) : List DP :=
  (List.range w).filterMap (fun x =>
    let i := (y * w + x) * 4
    if 0 < m.get (i + 3) then some ⟨x, y, i, false⟩ else none)

theorem scanDamaged_eq_rows (w h : ℕ) (m : Buf) :
    scanDamaged w h m = (List.range h).flatMap (fun y => rowScan w y m) := rfl

theorem mem_scanDamaged {w h : ℕ} {m : Buf} {p : DP} :
    p ∈ scanDamaged w h m ↔
      p.x < w ∧ p.y < h ∧ p.i = (p.y * w + p.x) * 4 ∧
        0 < m.get ((p.y * w + p.x) * 4 + 3) ∧ p.solved = false := by
  unfold scanDamaged
  simp only [List.mem_flatMap, List.mem_range, List.mem_filterMap,
    Option.ite_none_right_eq_some, Option.some.injEq]
  constructor
  · rintro ⟨y, hy, x, hx, hal, rfl⟩
    exact ⟨hx, hy, rfl, hal, rfl⟩
  · rintro ⟨hx, hy, hi, hal, hs⟩
    refine ⟨p.y, hy, p.x, hx, hal, ?_⟩
    cases p
    simp_all

theorem scanDamaged_eq_nil {w h : ℕ} {m : Buf}
    (hz : ∀ x, x < w → ∀ y, y < h → m.get ((y * w + x) * 4 + 3) = 0) :
    scanDamaged w h m = [] := by
  rw [List.eq_nil_iff_forall_not_mem]
  intro p hp
  rw [mem_scanDamaged] at hp
  obtain ⟨hx, hy, _, hpos, _⟩ := hp
  rw [hz _ hx _ hy] at hpos
  omega

theorem scanDamaged_solved_false {w h : ℕ} {m : Buf} :
    ∀ p ∈ scanDamaged w h m, p.solved = false :=
  fun _ hp => (mem_scanDamaged.mp hp).2.2.2.2

theorem filterMap_length_of_all_some {α β : Type} (f : α → Option β) :
    ∀ l : List α, (∀ x ∈ l, (f x).isSome) → (l.filterMap f).length = l.length := by
  intro l
  induction l with
  | nil => intro _; rfl
  | cons x xs ih =>
    intro hall
    cases hfx : f x with
    | none =>
      have := hall x (List.mem_cons_self _ _)
      rw [hfx] at this
      simp at this
    | some b =>
      rw [List.filterMap_cons, hfx, List.length_cons,
        ih (fun a ha => hall a (List.mem_cons_of_mem _ ha))]
      rfl

theorem scanDamaged_length_allMasked {w h : ℕ} {m : Buf}
    (hall : ∀ x y, x < w → y < h → 0 < m.get ((y * w + x) * 4 + 3)) :
    (scanDamaged w h m).length = h * w := by
  unfold scanDamaged
  rw [List.length_flatMap]
  have hmap : List.map (List.length ∘ fun y => (List.range w).filterMap (fun x =>
      let i := (y * w + x) * 4
      if 0 < m.get (i + 3) then some (⟨x, y, i, false⟩ : DP) else none)) (List.range h) =
      List.replicate h w := by
    rw [List.eq_replicate_iff]
    refine ⟨by simp, ?_⟩
    intro b hb
    simp only [List.mem_map, List.mem_range, Function.comp_apply] at hb
    obtain ⟨y, hy, rfl⟩ := hb
    rw [filterMap_length_of_all_some _ _ ?_, List.length_range]
    intro x hx
    rw [List.mem_range] at hx
    simp only [if_pos (hall x y hx hy), Option.isSome_some]
  rw [hmap, List.sum_replicate, smul_eq_mul]

theorem filterMap_ite_map_sublist {α β γ : Type} (c : α → Prop) [DecidablePred c]
    (g : α → β) (fi : β → γ) (l : List α) :
    ((l.filterMap (fun x => if c x then some (g x) else none)).map fi).Sublist
      (l.map (fun x => fi (g x))) := by
  induction l with
  | nil => simp
  | cons x xs ih =>
    by_cases hc : c x
    · rw [List.filterMap_cons, if_pos hc, List.map_cons, List.map_cons]
      exact ih.cons₂ _
    · rw [List.filterMap_cons, if_neg hc, List.map_cons]
      exact ih.cons _

theorem rowScan_idx_sublist (w y : ℕ) (m : Buf) :
    ((rowScan w y m).map (fun p => p.i)).Sublist
      ((List.range w).map (fun x => (y * w + x) * 4)) :=
  filterMap_ite_map_sublist (fun x => 0 < m.get ((y * w + x) * 4 + 3))
    (fun x => (⟨x, y, (y * w + x) * 4, false⟩ : DP)) (fun p => p.i) (List.range w)

theorem rowScan_idx_mem {w y : ℕ} {m : Buf} {a : ℕ}
    (ha : a ∈ (rowScan w y m).map (fun p => p.i)) :
    ∃ x, x < w ∧ a = (y * w + x) * 4 := by
  have := (rowScan_idx_sublist w y m).subset ha
  simp only [List.mem_map, List.mem_range] at this
  obtain ⟨x, hx, rfl⟩ := this
  exact ⟨x, hx, rfl⟩

theorem scanDamaged_nodup_idx (w h : ℕ) (m : Buf) :
    ((scanDamaged w h m).map (fun p => p.i)).Nodup := by
  rw [scanDamaged_eq_rows, List.map_flatMap, List.nodup_flatMap]
  constructor
  · intro y _
    refine (rowScan_idx_sublist w y m).nodup ?_
    refine List.Nodup.map ?_ (List.nodup_range w)
    intro a b hab
    have hab' : (y * w + a) * 4 = (y * w + b) * 4 := hab
    omega
  · refine List.Pairwise.imp ?_ (List.pairwise_lt_range h)
    intro y₁ y₂ hlt a ha₁ ha₂
    obtain ⟨x₁, hx₁, rfl⟩ := rowScan_idx_mem ha₁
    obtain ⟨x₂, hx₂, heq⟩ := rowScan_idx_mem ha₂
    have h1 : (y₁ + 1) * w ≤ y₂ * w := Nat.mul_le_mul_right w hlt
    have h2 : (y₁ + 1) * w = y₁ * w + w := by ring
    omega

/-! ### Pass analysis: snapshot agreement and frame lemmas -/

/-- `j` is one of the four bytes of the pixel block starting at `i`. -/
def inBlock (j i : ℕ) : Prop := j = i ∨ j = i + 1 ∨ j = i + 2 ∨ j = i + 3

instance (j i : ℕ) : Decidable (inBlock j i) := by
  unfold inBlock; infer_instance

/-- Two data buffers agree on every byte of every unmasked in-grid pixel
(mask read from the fixed pass-entry mask). -/
def Agree (w h : ℕ) (mask d d' : Buf) : Prop :=
  d'.size = d.size ∧
  ∀ x y c, x < w → y < h → c < 4 → mask.get ((y * w + x) * 4 + 3) = 0 →
    d'.get ((y * w + x) * 4 + c) = d.get ((y * w + x) * 4 + c)

theorem agree_self (w h : ℕ) (mask d : Buf) : Agree w h mask d d :=
  ⟨rfl, fun _ _ _ _ _ _ _ => rfl⟩

/-- Number of records with `solved = false`. -/
def countFalse (dps : List DP) : ℕ := dps.countP (fun p => !p.solved)

/-- The neighbour accumulation only reads bytes of unmasked in-grid
pixels, so it is the same over any two buffers that agree there. -/
theorem foldl_neighStep_congr (w h : ℕ) (mask d d' : Buf) (px py : ℕ)
    (hag : Agree w h mask d d') :
    ∀ (ol : List (ℤ × ℤ)) (acc : Acc),
      ol.foldl (neighStep w h d' mask px py) acc =
        ol.foldl (neighStep w h d mask px py) acc := by
  intro ol
  induction ol with
  | nil => intro acc; rfl
  | cons o rest ih =>
    intro acc
    rw [List.foldl_cons, List.foldl_cons]
    have hstep : neighStep w h d' mask px py acc o = neighStep w h d mask px py acc o := by
      unfold neighStep
      dsimp only
      split
      · next hb =>
        obtain ⟨h1, h2, h3, h4⟩ := hb
        have hx : ((px : ℤ) + o.1).toNat < w := (Int.toNat_lt h1).mpr h2
        have hy : ((py : ℤ) + o.2).toNat < h := (Int.toNat_lt h3).mpr h4
        split
        · rfl
        · next hmz =>
          have hz : mask.get ((((py : ℤ) + o.2).toNat * w + ((px : ℤ) + o.1).toNat) * 4 + 3) = 0 := by
            omega
          have e0 := hag.2 _ _ 0 hx hy (by omega) hz
          have e1 := hag.2 _ _ 1 hx hy (by omega) hz
          have e2 := hag.2 _ _ 2 hx hy (by omega) hz
          rw [Nat.add_zero] at e0
          rw [e0, e1, e2]
      · rfl
    rw [hstep, ih]

theorem neighAccum_congr {w h : ℕ} {mask d d' : Buf} (px py : ℕ)
    (hag : Agree w h mask d d') :
    neighAccum w h d' mask px py = neighAccum w h d mask px py :=
  foldl_neighStep_congr w h mask d d' px py hag offsets ⟨0, 0, 0, 0⟩

/-! ### Unfolding lemmas for `runPass` -/

theorem runPass_nil (w h : ℕ) (mask d : Buf) : runPass w h mask d [] = ⟨d, [], []⟩ := rfl

theorem runPass_cons_solved {w h : ℕ} {mask d : Buf} {p : DP} {rest : List DP}
    (hps : p.solved = true) :
    runPass w h mask d (p :: rest) =
      ⟨(runPass w h mask d rest).data, p :: (runPass w h mask d rest).dps,
       (runPass w h mask d rest).solved⟩ := by
  simp [runPass, hps]

/-- The buffer written for an unsolved record with a positive neighbour
count: RGB get the rounded means, alpha gets 255. -/
def writeBlock (d : Buf) (i : ℕ) (a : Acc) : Buf :=
  (((d.set i (rheDiv a.r a.count)).set (i + 1) (rheDiv a.g a.count)).set (i + 2)
    (rheDiv a.b a.count)).set (i + 3) 255

theorem runPass_cons_pos {w h : ℕ} {mask d : Buf} {p : DP} {rest : List DP}
    (hps : p.solved = false)
    (hca : 0 < (neighAccum w h d mask p.x p.y).count) :
    runPass w h mask d (p :: rest) =
      ⟨(runPass w h mask (writeBlock d p.i (neighAccum w h d mask p.x p.y)) rest).data,
       (⟨p.x, p.y, p.i, true⟩ : DP) ::
         (runPass w h mask (writeBlock d p.i (neighAccum w h d mask p.x p.y)) rest).dps,
       (⟨p.x, p.y, p.i, true⟩ : DP) ::
         (runPass w h mask (writeBlock d p.i (neighAccum w h d mask p.x p.y)) rest).solved⟩ := by
  simp [runPass, hps, hca, writeBlock]

theorem runPass_cons_zero {w h : ℕ} {mask d : Buf} {p : DP} {rest : List DP}
    (hps : p.solved = false)
    (hca : ¬ 0 < (neighAccum w h d mask p.x p.y).count) :
    runPass w h mask d (p :: rest) =
      ⟨(runPass w h mask d rest).data, p :: (runPass w h mask d rest).dps,
       (runPass w h mask d rest).solved⟩ := by
  simp [runPass, hps, hca]

theorem runPass_singleton_pos (w h : ℕ) (mask d : Buf) (p : DP)
    (hps : p.solved = false) (hca : 0 < (neighAccum w h d mask p.x p.y).count) :
    runPass w h mask d [p] =
      ⟨writeBlock d p.i (neighAccum w h d mask p.x p.y), [⟨p.x, p.y, p.i, true⟩],
       [⟨p.x, p.y, p.i, true⟩]⟩ := by
  rw [runPass_cons_pos hps hca]
  simp [runPass_nil]

/-! ### Writing an unsolved (hence masked) block preserves agreement -/

theorem Agree.write_block {w h : ℕ} {mask d₀ d : Buf} (hag : Agree w h mask d₀ d)
    {px py pi : ℕ} (hi : pi = (py * w + px) * 4)
    (hm : 0 < mask.get (pi + 3)) (a : Acc) :
    Agree w h mask d₀ (writeBlock d pi a) := by
  refine ⟨?_, ?_⟩
  · simp [writeBlock, Buf.size_set, hag.1]
  · intro x y c hx hy hc hz
    have hne : ∀ c', (y * w + x) * 4 + c ≠ pi + c' ∨ ¬ c' < 4 := by
      intro c'
      by_cases hc' : c' < 4
      · left
        intro heq
        have hpix : y * w + x = py * w + px := by omega
        rw [hi] at hm
        rw [← hpix] at hm
        omega
      · right; exact hc'
    have h0 : (y * w + x) * 4 + c ≠ pi := by
      rcases hne 0 with hn | hn
      · omega
      · omega
    have h1 : (y * w + x) * 4 + c ≠ pi + 1 := by
      rcases hne 1 with hn | hn
      · exact hn
      · omega
    have h2 : (y * w + x) * 4 + c ≠ pi + 2 := by
      rcases hne 2 with hn | hn
      · exact hn
      · omega
    have h3 : (y * w + x) * 4 + c ≠ pi + 3 := by
      rcases hne 3 with hn | hn
      · exact hn
      · omega
    rw [writeBlock, Buf.get_set_ne _ _ h3, Buf.get_set_ne _ _ h2,
      Buf.get_set_ne _ _ h1, Buf.get_set_ne _ _ h0]
    exact hag.2 x y c hx hy hc hz

theorem writeBlock_size (d : Buf) (i : ℕ) (a : Acc) : (writeBlock d i a).size = d.size := by
  simp [writeBlock, Buf.size_set]

theorem writeBlock_get_ne (d : Buf) (i : ℕ) (a : Acc) {j : ℕ} (hj : ¬ inBlock j i) :
    (writeBlock d i a).get j = d.get j := by
  unfold inBlock at hj
  push_neg at hj
  obtain ⟨n0, n1, n2, n3⟩ := hj
  rw [writeBlock, Buf.get_set_ne _ _ n3, Buf.get_set_ne _ _ n2,
    Buf.get_set_ne _ _ n1, Buf.get_set_ne _ _ n0]

theorem writeBlock_get_values (d : Buf) (i : ℕ) (a : Acc) (hsz : i + 3 < d.size) :
    (writeBlock d i a).get i = min (rheDiv a.r a.count) 255 ∧
    (writeBlock d i a).get (i + 1) = min (rheDiv a.g a.count) 255 ∧
    (writeBlock d i a).get (i + 2) = min (rheDiv a.b a.count) 255 ∧
    (writeBlock d i a).get (i + 3) = 255 := by
  have e3 : ((d.set i (rheDiv a.r a.count)).set (i + 1) (rheDiv a.g a.count)).size = d.size := by
    simp [Buf.size_set]
  have e2 : (((d.set i (rheDiv a.r a.count)).set (i + 1) (rheDiv a.g a.count)).set (i + 2)
      (rheDiv a.b a.count)).size = d.size := by
    simp [Buf.size_set]
  refine ⟨?_, ?_, ?_, ?_⟩
  · rw [writeBlock, Buf.get_set_ne _ _ (by omega), Buf.get_set_ne _ _ (by omega),
      Buf.get_set_ne _ _ (by omega), Buf.get_set_self _ _ (by omega)]
  · rw [writeBlock, Buf.get_set_ne _ _ (by omega), Buf.get_set_ne _ _ (by omega),
      Buf.get_set_self _ _ (by rw [Buf.size_set]; omega)]
  · rw [writeBlock, Buf.get_set_ne _ _ (by omega),
      Buf.get_set_self _ _ (by rw [e3]; omega)]
  · rw [writeBlock, Buf.get_set_self _ _ (by rw [e2]; omega)]
    rfl

/-- Frame and agreement facts for a single pass: the pass keeps the sizes,
preserves every byte outside the blocks of unsolved records, and keeps
agreement with the pass-entry snapshot on the bytes of unmasked pixels. -/
theorem runPass_frame (w h : ℕ) (mask d₀ : Buf) :
    ∀ (dps : List DP) (d : Buf),
      Agree w h mask d₀ d →
      (∀ p ∈ dps, p.i = (p.y * w + p.x) * 4 ∧
        (p.solved = false → 0 < mask.get (p.i + 3))) →
      Agree w h mask d₀ (runPass w h mask d dps).data ∧
      (runPass w h mask d dps).data.size = d.size ∧
      (∀ j, (∀ p ∈ dps, p.solved = false → ¬ inBlock j p.i) →
        (runPass w h mask d dps).data.get j = d.get j) := by
  intro dps
  induction dps with
  | nil => intro d hag _; exact ⟨hag, rfl, fun _ _ => rfl⟩
  | cons p rest ih =>
    intro d hag hwf
    have hwfr := fun q hq => hwf q (List.mem_cons_of_mem _ hq)
    obtain ⟨hip, hmp⟩ := hwf p (List.mem_cons_self _ _)
    cases hps : p.solved with
    | true =>
      rw [runPass_cons_solved hps]
      obtain ⟨ha, hs, hf⟩ := ih d hag hwfr
      exact ⟨ha, hs, fun j hj => hf j (fun q hq hsq => hj q (List.mem_cons_of_mem _ hq) hsq)⟩
    | false =>
      by_cases hca : 0 < (neighAccum w h d mask p.x p.y).count
      · rw [runPass_cons_pos hps hca]
        have hag' : Agree w h mask d₀ (writeBlock d p.i (neighAccum w h d mask p.x p.y)) :=
          hag.write_block hip (hmp hps) _
        obtain ⟨ha, hs, hf⟩ := ih _ hag' hwfr
        refine ⟨ha, ?_, ?_⟩
        · rw [hs, writeBlock_size]
        · intro j hj
          rw [hf j (fun q hq hsq => hj q (List.mem_cons_of_mem _ hq) hsq),
            writeBlock_get_ne _ _ _ (hj p (List.mem_cons_self _ _) hps)]
      · rw [runPass_cons_zero hps hca]
        obtain ⟨ha, hs, hf⟩ := ih d hag hwfr
        exact ⟨ha, hs, fun j hj => hf j (fun q hq hsq => hj q (List.mem_cons_of_mem _ hq) hsq)⟩

/-- Field preservation across one pass: record `k` keeps its coordinates
and buffer index, and ends the pass solved exactly when it was already
solved or its pass-entry neighbour count is positive. -/
theorem runPass_fields (w h : ℕ) (mask d₀ : Buf) :
    ∀ (dps : List DP) (d : Buf),
      Agree w h mask d₀ d →
      (∀ p ∈ dps, p.i = (p.y * w + p.x) * 4 ∧
        (p.solved = false → 0 < mask.get (p.i + 3))) →
      (runPass w h mask d dps).dps.length = dps.length ∧
      ∀ k (hk : k < dps.length) (hk' : k < (runPass w h mask d dps).dps.length),
        ((runPass w h mask d dps).dps.get ⟨k, hk'⟩).x = (dps.get ⟨k, hk⟩).x ∧
        ((runPass w h mask d dps).dps.get ⟨k, hk'⟩).y = (dps.get ⟨k, hk⟩).y ∧
        ((runPass w h mask d dps).dps.get ⟨k, hk'⟩).i = (dps.get ⟨k, hk⟩).i ∧
        (((runPass w h mask d dps).dps.get ⟨k, hk'⟩).solved = true ↔
          ((dps.get ⟨k, hk⟩).solved = true ∨
            0 < (neighAccum w h d₀ mask (dps.get ⟨k, hk⟩).x (dps.get ⟨k, hk⟩).y).count)) := by
  intro dps
  induction dps with
  | nil => intro d _ _; exact ⟨rfl, fun k hk => absurd hk (by simp)⟩
  | cons p rest ih =>
    intro d hag hwf
    have hwfr := fun q hq => hwf q (List.mem_cons_of_mem _ hq)
    obtain ⟨hip, hmp⟩ := hwf p (List.mem_cons_self _ _)
    have hacc : neighAccum w h d mask p.x p.y = neighAccum w h d₀ mask p.x p.y :=
      neighAccum_congr p.x p.y hag
    cases hps : p.solved with
    | true =>
      rw [runPass_cons_solved hps]
      obtain ⟨hlen, hget⟩ := ih d hag hwfr
      refine ⟨by simp [hlen], ?_⟩
      intro k hk hk'
      cases k with
      | zero => simp [hps]
      | succ k =>
        have hk2 : k < rest.length := by simpa using hk
        have hk2' : k < (runPass w h mask d rest).dps.length := by
          simpa using hk'
        exact hget k hk2 hk2'
    | false =>
      by_cases hca : 0 < (neighAccum w h d mask p.x p.y).count
      · rw [runPass_cons_pos hps hca]
        have hag' : Agree w h mask d₀ (writeBlock d p.i (neighAccum w h d mask p.x p.y)) :=
          hag.write_block hip (hmp hps) _
        obtain ⟨hlen, hget⟩ := ih _ hag' hwfr
        refine ⟨by simp [hlen], ?_⟩
        intro k hk hk'
        cases k with
        | zero =>
          refine ⟨rfl, rfl, rfl, ?_⟩
          simp only [List.get]
          rw [hacc] at hca
          simp [hps, hca]
        | succ k =>
          have hk2 : k < rest.length := by simpa using hk
          have hk2' : k < (runPass w h mask (writeBlock d p.i
              (neighAccum w h d mask p.x p.y)) rest).dps.length := by
            simpa using hk'
          exact hget k hk2 hk2'
      · rw [runPass_cons_zero hps hca]
        obtain ⟨hlen, hget⟩ := ih d hag hwfr
        refine ⟨by simp [hlen], ?_⟩
        intro k hk hk'
        cases k with
        | zero =>
          refine ⟨rfl, rfl, rfl, ?_⟩
          simp only [List.get]
          rw [hacc] at hca
          simp [hps, hca]
        | succ k =>
          have hk2 : k < rest.length := by simpa using hk
          have hk2' : k < (runPass w h mask d rest).dps.length := by simpa using hk'
          exact hget k hk2 hk2'

/-- Structure of the `solvedThisPass` list: it holds exactly the records
flipped in this pass (same coordinates, `solved = true`), and the number
of unsolved records drops by exactly its length. -/
theorem runPass_solved_structure (w h : ℕ) (mask : Buf) :
    ∀ (dps : List DP) (d : Buf),
      (∀ sp ∈ (runPass w h mask d dps).solved, sp.solved = true ∧
        ∃ k, ∃ (hk : k < dps.length), ∃ (hk' : k < (runPass w h mask d dps).dps.length),
          sp = (runPass w h mask d dps).dps.get ⟨k, hk'⟩ ∧
          (dps.get ⟨k, hk⟩).solved = false) ∧
      (∀ k (hk : k < dps.length) (hk' : k < (runPass w h mask d dps).dps.length),
        (dps.get ⟨k, hk⟩).solved = false →
        ((runPass w h mask d dps).dps.get ⟨k, hk'⟩).solved = true →
        (runPass w h mask d dps).dps.get ⟨k, hk'⟩ ∈ (runPass w h mask d dps).solved) ∧
      countFalse dps =
        countFalse (runPass w h mask d dps).dps + (runPass w h mask d dps).solved.length := by
  intro dps
  induction dps with
  | nil =>
    intro d
    exact ⟨fun sp hsp => absurd hsp (by simp [runPass_nil]), fun k hk => absurd hk (by simp), rfl⟩
  | cons p rest ih =>
    intro d
    cases hps : p.solved with
    | true =>
      rw [runPass_cons_solved hps]
      obtain ⟨hmem, hflip, hcount⟩ := ih d
      refine ⟨?_, ?_, ?_⟩
      · intro sp hsp
        obtain ⟨h1, k, hk, hk', hsp2, hforig⟩ := hmem sp hsp
        exact ⟨h1, k + 1, by simpa using hk, by simpa using hk', hsp2, hforig⟩
      · intro k hk hk' hf ht
        cases k with
        | zero =>
          have hp0 : (p :: rest).get ⟨0, hk⟩ = p := rfl
          rw [hp0, hps] at hf
          cases hf
        | succ k =>
          exact hflip k (by simpa using hk) (by simpa using hk') hf ht
      · have hc1 : countFalse (p :: rest) = countFalse rest := by
          simp [countFalse, List.countP_cons, hps]
        have hc2 : countFalse (p :: (runPass w h mask d rest).dps) =
            countFalse (runPass w h mask d rest).dps := by
          simp [countFalse, List.countP_cons, hps]
        rw [hc1, hc2]
        exact hcount
    | false =>
      by_cases hca : 0 < (neighAccum w h d mask p.x p.y).count
      · rw [runPass_cons_pos hps hca]
        obtain ⟨hmem, hflip, hcount⟩ := ih (writeBlock d p.i (neighAccum w h d mask p.x p.y))
        refine ⟨?_, ?_, ?_⟩
        · intro sp hsp
          rcases List.mem_cons.mp hsp with hsp | hsp
          · subst hsp
            exact ⟨rfl, 0, by simp, by simp, rfl, hps⟩
          · obtain ⟨h1, k, hk, hk', hsp2, hforig⟩ := hmem sp hsp
            exact ⟨h1, k + 1, by simpa using hk, by simpa using hk', hsp2, hforig⟩
        · intro k hk hk' hf ht
          cases k with
          | zero => exact List.mem_cons_self _ _
          | succ k =>
            exact List.mem_cons_of_mem _
              (hflip k (by simpa using hk) (by simpa using hk') hf ht)
        · have hc1 : countFalse (p :: rest) = countFalse rest + 1 := by
            simp [countFalse, List.countP_cons, hps]
          have hc2 : countFalse ((⟨p.x, p.y, p.i, true⟩ : DP) ::
              (runPass w h mask (writeBlock d p.i (neighAccum w h d mask p.x p.y)) rest).dps) =
              countFalse (runPass w h mask
                (writeBlock d p.i (neighAccum w h d mask p.x p.y)) rest).dps := by
            simp [countFalse, List.countP_cons]
          rw [hc1, hc2, List.length_cons]
          omega
      · rw [runPass_cons_zero hps hca]
        obtain ⟨hmem, hflip, hcount⟩ := ih d
        refine ⟨?_, ?_, ?_⟩
        · intro sp hsp
          obtain ⟨h1, k, hk, hk', hsp2, hforig⟩ := hmem sp hsp
          exact ⟨h1, k + 1, by simpa using hk, by simpa using hk', hsp2, hforig⟩
        · intro k hk hk' hf ht
          cases k with
          | zero =>
            have hp0 : (p :: (runPass w h mask d rest).dps).get ⟨0, hk'⟩ = p := rfl
            rw [hp0, hps] at ht
            cases ht
          | succ k =>
            exact hflip k (by simpa using hk) (by simpa using hk') hf ht
        · have hc1 : countFalse (p :: rest) = countFalse rest + 1 := by
            simp [countFalse, List.countP_cons, hps]
          have hc2 : countFalse (p :: (runPass w h mask d rest).dps) =
              countFalse (runPass w h mask d rest).dps + 1 := by
            simp [countFalse, List.countP_cons, hps]
          show countFalse (p :: rest) =
            countFalse (p :: (runPass w h mask d rest).dps) +
              (runPass w h mask d rest).solved.length
          rw [hc1, hc2]
          omega

/-- Disjointness of the 4-byte blocks of two records with distinct,
4-aligned buffer indices. -/
theorem block_disjoint {pi qi c : ℕ} {pa qa : ℕ} (hp : pi = pa * 4) (hq : qi = qa * 4)
    (hne : qi ≠ pi) (hc : c < 4) : ¬ inBlock (pi + c) qi := by
  intro hb
  unfold inBlock at hb
  omega

/-- The value a pass writes for each record it resolves: the rounded mean
of the pass-ENTRY snapshot accumulation, clamped to a byte, and alpha 255. -/
theorem runPass_values (w h : ℕ) (mask d₀ : Buf) :
    ∀ (dps : List DP) (d : Buf),
      Agree w h mask d₀ d →
      (∀ p ∈ dps, p.i = (p.y * w + p.x) * 4 ∧
        (p.solved = false → 0 < mask.get (p.i + 3)) ∧ p.i + 3 < d.size) →
      ((dps.map (fun p => p.i)).Nodup) →
      ∀ k (hk : k < dps.length),
        (dps.get ⟨k, hk⟩).solved = false →
        0 < (neighAccum w h d₀ mask (dps.get ⟨k, hk⟩).x (dps.get ⟨k, hk⟩).y).count →
        ((runPass w h mask d dps).data.get ((dps.get ⟨k, hk⟩).i) =
            min (rheDiv (neighAccum w h d₀ mask (dps.get ⟨k, hk⟩).x (dps.get ⟨k, hk⟩).y).r
              (neighAccum w h d₀ mask (dps.get ⟨k, hk⟩).x (dps.get ⟨k, hk⟩).y).count) 255 ∧
          (runPass w h mask d dps).data.get ((dps.get ⟨k, hk⟩).i + 1) =
            min (rheDiv (neighAccum w h d₀ mask (dps.get ⟨k, hk⟩).x (dps.get ⟨k, hk⟩).y).g
              (neighAccum w h d₀ mask (dps.get ⟨k, hk⟩).x (dps.get ⟨k, hk⟩).y).count) 255 ∧
          (runPass w h mask d dps).data.get ((dps.get ⟨k, hk⟩).i + 2) =
            min (rheDiv (neighAccum w h d₀ mask (dps.get ⟨k, hk⟩).x (dps.get ⟨k, hk⟩).y).b
              (neighAccum w h d₀ mask (dps.get ⟨k, hk⟩).x (dps.get ⟨k, hk⟩).y).count) 255 ∧
          (runPass w h mask d dps).data.get ((dps.get ⟨k, hk⟩).i + 3) = 255) := by
  intro dps
  induction dps with
  | nil => intro d _ _ _ k hk; exact absurd hk (by simp)
  | cons p rest ih =>
    intro d hag hwf hnd
    have hwfr := fun q hq => hwf q (List.mem_cons_of_mem _ hq)
    obtain ⟨hip, hmp, hsz⟩ := hwf p (List.mem_cons_self _ _)
    have hndc : (∀ x ∈ rest, ¬ x.i = p.i) ∧ (List.map (fun q => q.i) rest).Nodup := by
      simpa using hnd
    have hacc : neighAccum w h d mask p.x p.y = neighAccum w h d₀ mask p.x p.y :=
      neighAccum_congr p.x p.y hag
    intro k hk
    cases k with
    | zero =>
      have hp0 : (p :: rest).get ⟨0, hk⟩ = p := rfl
      rw [hp0]
      intro hsf hcnt
      by_cases hca : 0 < (neighAccum w h d mask p.x p.y).count
      · have hag' : Agree w h mask d₀ (writeBlock d p.i (neighAccum w h d mask p.x p.y)) :=
          hag.write_block hip (hmp hsf) _
        have hdata : (runPass w h mask d (p :: rest)).data =
            (runPass w h mask (writeBlock d p.i (neighAccum w h d mask p.x p.y)) rest).data := by
          rw [runPass_cons_pos hsf hca]
        have hframe := (runPass_frame w h mask d₀ rest
          (writeBlock d p.i (neighAccum w h d mask p.x p.y)) hag'
          (fun q hq => ⟨(hwfr q hq).1, (hwfr q hq).2.1⟩)).2.2
        have hcond : ∀ c, c < 4 → ∀ q ∈ rest, q.solved = false → ¬ inBlock (p.i + c) q.i := by
          intro c hc q hq _
          have hqi : q.i ≠ p.i := hndc.1 q hq
          exact block_disjoint hip (hwfr q hq).1 hqi hc
        have hv := writeBlock_get_values d p.i (neighAccum w h d mask p.x p.y) hsz
        have hf0 := hframe p.i (fun q hq hsq => by
          have := hcond 0 (by omega) q hq hsq
          simpa using this)
        have hf1 := hframe (p.i + 1) (hcond 1 (by omega))
        have hf2 := hframe (p.i + 2) (hcond 2 (by omega))
        have hf3 := hframe (p.i + 3) (hcond 3 (by omega))
        rw [hdata, ← hacc]
        exact ⟨by rw [hf0, hv.1], by rw [hf1, hv.2.1], by rw [hf2, hv.2.2.1],
          by rw [hf3, hv.2.2.2]⟩
      · rw [hacc] at hca
        exact absurd hcnt hca
    | succ k =>
      have hk2 : k < rest.length := by simpa using hk
      have hp1 : (p :: rest).get ⟨k + 1, hk⟩ = rest.get ⟨k, hk2⟩ := rfl
      rw [hp1]
      intro hsf hcnt
      cases hps : p.solved with
      | true =>
        have hdata : (runPass w h mask d (p :: rest)).data =
            (runPass w h mask d rest).data := by
          rw [runPass_cons_solved hps]
        rw [hdata]
        exact ih d hag hwfr hndc.2 k hk2 hsf hcnt
      | false =>
        by_cases hca : 0 < (neighAccum w h d mask p.x p.y).count
        · have hag' : Agree w h mask d₀ (writeBlock d p.i (neighAccum w h d mask p.x p.y)) :=
            hag.write_block hip (hmp hps) _
          have hwfr' : ∀ q ∈ rest, q.i = (q.y * w + q.x) * 4 ∧
              (q.solved = false → 0 < mask.get (q.i + 3)) ∧
              q.i + 3 < (writeBlock d p.i (neighAccum w h d mask p.x p.y)).size := by
            intro q hq
            obtain ⟨h1, h2, h3⟩ := hwfr q hq
            exact ⟨h1, h2, by rw [writeBlock_size]; exact h3⟩
          have hdata : (runPass w h mask d (p :: rest)).data =
              (runPass w h mask (writeBlock d p.i (neighAccum w h d mask p.x p.y)) rest).data := by
            rw [runPass_cons_pos hps hca]
          rw [hdata]
          exact ih _ hag' hwfr' hndc.2 k hk2 hsf hcnt
        · have hdata : (runPass w h mask d (p :: rest)).data =
              (runPass w h mask d rest).data := by
            rw [runPass_cons_zero hps hca]
          rw [hdata]
          exact ih d hag hwfr hndc.2 k hk2 hsf hcnt

/-! ### Commit-step lemmas -/

theorem commitMask_cons (sp : DP) (rest : List DP) (m : Buf) :
    commitMask (sp :: rest) m = commitMask rest (m.set (sp.i + 3) 0) := rfl

theorem commitMask_size (solved : List DP) : ∀ m : Buf, (commitMask solved m).size = m.size := by
  induction solved with
  | nil => intro m; rfl
  | cons sp rest ih =>
    intro m
    rw [commitMask_cons, ih, Buf.size_set]

theorem Buf.get_set_zero_of_zero (b : Buf) (i j : ℕ) (h : b.get j = 0) :
    (b.set i 0).get j = 0 := by
  by_cases hij : j = i
  · subst hij
    by_cases hlt : j < b.size
    · rw [Buf.get_set_self _ _ hlt]
      rfl
    · unfold Buf.set
      rw [if_neg hlt]
      exact h
  · rw [Buf.get_set_ne _ _ hij]
    exact h

theorem commitMask_preserves_zero (solved : List DP) :
    ∀ (m : Buf) (j : ℕ), m.get j = 0 → (commitMask solved m).get j = 0 := by
  induction solved with
  | nil => intro m j hj; exact hj
  | cons sp rest ih =>
    intro m j hj
    rw [commitMask_cons]
    exact ih _ _ (Buf.get_set_zero_of_zero m _ _ hj)

theorem commitMask_get_notmem (solved : List DP) :
    ∀ (m : Buf) (j : ℕ), (∀ sp ∈ solved, j ≠ sp.i + 3) →
      (commitMask solved m).get j = m.get j := by
  induction solved with
  | nil => intro m j _; rfl
  | cons sp rest ih =>
    intro m j hne
    rw [commitMask_cons, ih _ _ (fun q hq => hne q (List.mem_cons_of_mem _ hq)),
      Buf.get_set_ne _ _ (hne sp (List.mem_cons_self _ _))]

theorem commitMask_get_mem (solved : List DP) :
    ∀ (m : Buf) (sp : DP), sp ∈ solved → sp.i + 3 < m.size →
      (commitMask solved m).get (sp.i + 3) = 0 := by
  induction solved with
  | nil => intro m sp hsp; exact absurd hsp (by simp)
  | cons q rest ih =>
    intro m sp hsp hsz
    rw [commitMask_cons]
    rcases List.mem_cons.mp hsp with hsp | hsp
    · subst hsp
      refine commitMask_preserves_zero rest _ _ ?_
      rw [Buf.get_set_self _ _ hsz]
      rfl
    · exact ih _ _ hsp (by rw [Buf.size_set]; exact hsz)

/-! ### Loop-level master lemma -/

/-- The working-state invariant of the pass loop: every record is in-grid
with a consistent, in-range buffer index; unsolved records are still
masked, solved records have had their mask alpha cleared; records have
pairwise distinct buffer indices. -/
def WF (w h : ℕ) (data mask : Buf) (dps : List DP) : Prop :=
  (∀ p ∈ dps, p.x < w ∧ p.y < h ∧ p.i = (p.y * w + p.x) * 4 ∧
    p.i + 3 < mask.size ∧ p.i + 3 < data.size ∧
    (p.solved = false → 0 < mask.get (p.i + 3)) ∧
    (p.solved = true → mask.get (p.i + 3) = 0)) ∧
  ((dps.map (fun p => p.i)).Nodup)

/-- Indexing a record list with a default, to keep statements free of
dependent bound proofs. -/
def dpAt (dps : List DP) (k : ℕ) : DP := dps.getD k ⟨0, 0, 0, false⟩

theorem dpAt_eq_get {dps : List DP} {k : ℕ} (hk : k < dps.length) :
    dpAt dps k = dps.get ⟨k, hk⟩ :=
  List.getD_eq_get dps _ hk

theorem countFalse_eq_zero {dps : List DP} :
    countFalse dps = 0 ↔ ∀ p ∈ dps, p.solved = true := by
  unfold countFalse
  rw [List.countP_eq_zero]
  constructor
  · intro hall p hp
    have := hall p hp
    simpa using this
  · intro hall p hp
    simpa using hall p hp

theorem passLoop_master (w h : ℕ) :
    ∀ (fuel : ℕ) (data mask : Buf) (dps : List DP) (remaining : ℕ),
      WF w h data mask dps →
      remaining = countFalse dps →
      WF w h (passLoop w h data mask dps remaining fuel).data
        (passLoop w h data mask dps remaining fuel).mask
        (passLoop w h data mask dps remaining fuel).dps ∧
      (passLoop w h data mask dps remaining fuel).data.size = data.size ∧
      (passLoop w h data mask dps remaining fuel).mask.size = mask.size ∧
      (passLoop w h data mask dps remaining fuel).dps.length = dps.length ∧
      (passLoop w h data mask dps remaining fuel).remaining =
        countFalse (passLoop w h data mask dps remaining fuel).dps ∧
      (∀ k, k < dps.length →
        (dpAt (passLoop w h data mask dps remaining fuel).dps k).x = (dpAt dps k).x ∧
        (dpAt (passLoop w h data mask dps remaining fuel).dps k).y = (dpAt dps k).y ∧
        (dpAt (passLoop w h data mask dps remaining fuel).dps k).i = (dpAt dps k).i ∧
        ((dpAt dps k).solved = true →
          (dpAt (passLoop w h data mask dps remaining fuel).dps k).solved = true)) ∧
      (∀ k, k < dps.length → (dpAt dps k).solved = true →
        ∀ c, c < 4 →
          (passLoop w h data mask dps remaining fuel).data.get ((dpAt dps k).i + c) =
            data.get ((dpAt dps k).i + c)) ∧
      (∀ j, (passLoop w h data mask dps remaining fuel).data.get j = data.get j ∨
        ∃ p ∈ dps, p.solved = false ∧ inBlock j p.i) ∧
      (∀ j, (passLoop w h data mask dps remaining fuel).mask.get j = mask.get j ∨
        ((passLoop w h data mask dps remaining fuel).mask.get j = 0 ∧
          ∃ p ∈ dps, p.solved = false ∧ j = p.i + 3)) := by
  intro fuel
  induction fuel with
  | zero =>
    intro data mask dps remaining hwf hrem
    rw [passLoop_fuel_zero]
    exact ⟨hwf, rfl, rfl, rfl, hrem, fun k hk => ⟨rfl, rfl, rfl, fun hs => hs⟩,
      fun k hk hs c hc => rfl, fun j => Or.inl rfl, fun j => Or.inl rfl⟩
  | succ f ih =>
    intro data mask dps remaining hwf hrem
    by_cases hrz : remaining = 0
    · subst hrz
      rw [passLoop_rem_zero]
      exact ⟨hwf, rfl, rfl, rfl, hrem, fun k hk => ⟨rfl, rfl, rfl, fun hs => hs⟩,
        fun k hk hs c hc => rfl, fun j => Or.inl rfl, fun j => Or.inl rfl⟩
    · rw [passLoop_step w h data mask dps (by omega) (by omega)]
      simp only [Nat.add_sub_cancel]
      obtain ⟨hwf1, hnd⟩ := hwf
      have wfw : ∀ p ∈ dps, p.i = (p.y * w + p.x) * 4 ∧
          (p.solved = false → 0 < mask.get (p.i + 3)) :=
        fun p hp => ⟨(hwf1 p hp).2.2.1, (hwf1 p hp).2.2.2.2.2.1⟩
      obtain ⟨hagR, hszR, hframeR⟩ :=
        runPass_frame w h mask data dps data (agree_self _ _ _ _) wfw
      obtain ⟨hlenR, hgetR⟩ :=
        runPass_fields w h mask data dps data (agree_self _ _ _ _) wfw
      obtain ⟨hmemR, hflipR, hcntR⟩ := runPass_solved_structure w h mask dps data
      have hmaskSz : (commitMask (runPass w h mask data dps).solved mask).size = mask.size :=
        commitMask_size _ mask
      -- the i-map is unchanged by the pass
      have hmapeq : (runPass w h mask data dps).dps.map (fun p => p.i) =
          dps.map (fun p => p.i) := by
        refine List.ext_get (by simp [hlenR]) ?_
        intro n h1 h2
        rw [List.get_map, List.get_map]
        exact (hgetR n (by simpa using h2) (by simpa using h1)).2.2.1
      -- dpAt versions of the pass field facts
      have hfieldsR : ∀ k, k < dps.length →
          (dpAt (runPass w h mask data dps).dps k).x = (dpAt dps k).x ∧
          (dpAt (runPass w h mask data dps).dps k).y = (dpAt dps k).y ∧
          (dpAt (runPass w h mask data dps).dps k).i = (dpAt dps k).i ∧
          ((dpAt (runPass w h mask data dps).dps k).solved = true ↔
            ((dpAt dps k).solved = true ∨
              0 < (neighAccum w h data mask (dpAt dps k).x (dpAt dps k).y).count)) := by
        intro k hk
        have hkR : k < (runPass w h mask data dps).dps.length := by
          rw [hlenR]; exact hk
        rw [dpAt_eq_get hk, dpAt_eq_get hkR]
        exact hgetR k hk hkR
      -- every solved-this-pass record sits at a position that was unsolved,
      -- with the original buffer index
      have hspOrig : ∀ sp ∈ (runPass w h mask data dps).solved,
          ∃ k₂, ∃ (hk₂ : k₂ < dps.length),
            sp.i = (dps.get ⟨k₂, hk₂⟩).i ∧ (dps.get ⟨k₂, hk₂⟩).solved = false := by
        intro sp hsp
        obtain ⟨hst, k₂, hk₂, hk₂', hspeq, hforig⟩ := hmemR sp hsp
        refine ⟨k₂, hk₂, ?_, hforig⟩
        rw [hspeq]
        exact (hgetR k₂ hk₂ hk₂').2.2.1
      -- the commit step never touches the alpha byte of a still-unsolved record
      have hnotCleared : ∀ k (hk : k < dps.length)
          (hk' : k < (runPass w h mask data dps).dps.length),
          ((runPass w h mask data dps).dps.get ⟨k, hk'⟩).solved = false →
          (commitMask (runPass w h mask data dps).solved mask).get
              (((runPass w h mask data dps).dps.get ⟨k, hk'⟩).i + 3) =
            mask.get (((runPass w h mask data dps).dps.get ⟨k, hk'⟩).i + 3) := by
        intro k hk hk' hpf
        apply commitMask_get_notmem
        intro sp hsp heq
        obtain ⟨hst, k₂, hk₂, hk₂', hspeq, hforig⟩ := hmemR sp hsp
        have hspmem : sp ∈ (runPass w h mask data dps).dps := by
          rw [hspeq]
          exact List.get_mem _ _ _
        have hndR : ((runPass w h mask data dps).dps.map (fun p => p.i)).Nodup := by
          rw [hmapeq]
          exact hnd
        have hii : sp.i = ((runPass w h mask data dps).dps.get ⟨k, hk'⟩).i := by omega
        have heqel := List.inj_on_of_nodup_map hndR hspmem (List.get_mem _ _ _) hii
        rw [heqel, hpf] at hst
        cases hst
      -- mask changes produced by the commit step
      have hmaskPass : ∀ j,
          (commitMask (runPass w h mask data dps).solved mask).get j = mask.get j ∨
          ((commitMask (runPass w h mask data dps).solved mask).get j = 0 ∧
            ∃ p ∈ dps, p.solved = false ∧ j = p.i + 3) := by
        intro j
        by_cases hex : ∃ sp ∈ (runPass w h mask data dps).solved, j = sp.i + 3
        · obtain ⟨sp, hsp, rfl⟩ := hex
          obtain ⟨k₂, hk₂, hieq, hforig⟩ := hspOrig sp hsp
          have hsize : sp.i + 3 < mask.size := by
            rw [hieq]
            exact (hwf1 _ (List.get_mem _ _ _)).2.2.2.1
          exact Or.inr ⟨commitMask_get_mem _ mask sp hsp hsize,
            dps.get ⟨k₂, hk₂⟩, List.get_mem _ _ _, hforig, by rw [hieq]⟩
        · push_neg at hex
          exact Or.inl (commitMask_get_notmem _ mask j hex)
      -- data changes produced by the pass
      have hdataPass : ∀ j, (runPass w h mask data dps).data.get j = data.get j ∨
          ∃ p ∈ dps, p.solved = false ∧ inBlock j p.i := by
        intro j
        by_cases hex : ∃ p ∈ dps, p.solved = false ∧ inBlock j p.i
        · exact Or.inr hex
        · push_neg at hex
          exact Or.inl (hframeR j hex)
      -- the blocks of entry-solved records are untouched by the pass
      have hsolvedFrameR : ∀ k, k < dps.length → (dpAt dps k).solved = true →
          ∀ c, c < 4 →
            (runPass w h mask data dps).data.get ((dpAt dps k).i + c) =
              data.get ((dpAt dps k).i + c) := by
        intro k hk hs c hc
        rw [dpAt_eq_get hk] at hs ⊢
        apply hframeR
        intro q hq hqf
        have hqi : q.i ≠ (dps.get ⟨k, hk⟩).i := by
          intro he
          have h1 : 0 < mask.get (q.i + 3) := (hwf1 q hq).2.2.2.2.2.1 hqf
          have h2 : mask.get ((dps.get ⟨k, hk⟩).i + 3) = 0 :=
            (hwf1 _ (List.get_mem _ _ _)).2.2.2.2.2.2 hs
          rw [he] at h1
          omega
        exact block_disjoint (hwf1 _ (List.get_mem _ _ _)).2.2.1 (hwf1 q hq).2.2.1 hqi hc
      -- the new state satisfies the invariant
      have hWF2 : WF w h (runPass w h mask data dps).data
          (commitMask (runPass w h mask data dps).solved mask)
          (runPass w h mask data dps).dps := by
        constructor
        · intro p' hp'
          obtain ⟨⟨k, hk'⟩, rfl⟩ := List.mem_iff_get.mp hp'
          have hk : k < dps.length := by rw [← hlenR]; exact hk'
          obtain ⟨hx, hy, hi, hiff⟩ := hgetR k hk hk'
          obtain ⟨ox, oy, oi, omsz, odsz, ouns, osol⟩ := hwf1 _ (List.get_mem dps k hk)
          refine ⟨by rw [hx]; exact ox, by rw [hy]; exact oy, by rw [hx, hy, hi]; exact oi,
            by rw [hi, hmaskSz]; exact omsz, by rw [hi, hszR]; exact odsz, ?_, ?_⟩
          · intro hpf
            rw [hnotCleared k hk hk' hpf, hi]
            apply ouns
            cases hpo : (dps.get ⟨k, hk⟩).solved with
            | false => rfl
            | true => rw [hiff.mpr (Or.inl hpo)] at hpf; cases hpf
          · intro hpt
            by_cases hpo : (dps.get ⟨k, hk⟩).solved = true
            · exact commitMask_preserves_zero _ _ _ (by rw [hi]; exact osol hpo)
            · have hpo2 : (dps.get ⟨k, hk⟩).solved = false := by
                cases hb : (dps.get ⟨k, hk⟩).solved with
                | false => rfl
                | true => exact absurd hb hpo
              have hmem2 := hflipR k hk hk' hpo2 hpt
              exact commitMask_get_mem _ mask _ hmem2 (by rw [hi]; exact omsz)
        · rw [hmapeq]
          exact hnd
      have hrem2 : remaining - (runPass w h mask data dps).solved.length =
          countFalse (runPass w h mask data dps).dps := by
        omega
      by_cases hsl : (runPass w h mask data dps).solved.length = 0
      · simp only [if_pos hsl]
        refine ⟨hWF2, hszR, hmaskSz, hlenR, hrem2, ?_, hsolvedFrameR, hdataPass, hmaskPass⟩
        intro k hk
        obtain ⟨hx, hy, hi, hiff⟩ := hfieldsR k hk
        exact ⟨hx, hy, hi, fun hs => hiff.mpr (Or.inl hs)⟩
      · simp only [if_neg hsl]
        obtain ⟨iWF, iszd, iszm, ilen, irem, ifields, isolvedframe, idata, imask⟩ :=
          ih (runPass w h mask data dps).data
            (commitMask (runPass w h mask data dps).solved mask)
            (runPass w h mask data dps).dps
            (remaining - (runPass w h mask data dps).solved.length) hWF2 hrem2
        refine ⟨iWF, by rw [iszd, hszR], by rw [iszm, hmaskSz], by rw [ilen, hlenR],
          irem, ?_, ?_, ?_, ?_⟩
        · intro k hk
          have hkR : k < (runPass w h mask data dps).dps.length := by
            rw [hlenR]; exact hk
          obtain ⟨ix, iy, ii, isolv⟩ := ifields k hkR
          obtain ⟨rx, ry, ri, riff⟩ := hfieldsR k hk
          exact ⟨by rw [ix, rx], by rw [iy, ry], by rw [ii, ri],
            fun hs => isolv (riff.mpr (Or.inl hs))⟩
        · intro k hk hs c hc
          have hkR : k < (runPass w h mask data dps).dps.length := by
            rw [hlenR]; exact hk
          obtain ⟨rx, ry, ri, riff⟩ := hfieldsR k hk
          have hRsolved : (dpAt (runPass w h mask data dps).dps k).solved = true :=
            riff.mpr (Or.inl hs)
          have h1 := isolvedframe k hkR hRsolved c hc
          rw [ri] at h1
          rw [h1]
          exact hsolvedFrameR k hk hs c hc
        · intro j
          rcases idata j with hj | ⟨p', hp', hpf, hpb⟩
          · rcases hdataPass j with hj2 | hex
            · exact Or.inl (by rw [hj, hj2])
            · exact Or.inr hex
          · obtain ⟨⟨k, hk'⟩, rfl⟩ := List.mem_iff_get.mp hp'
            have hk : k < dps.length := by rw [← hlenR]; exact hk'
            obtain ⟨rx, ry, ri, riff⟩ := hgetR k hk hk'
            refine Or.inr ⟨dps.get ⟨k, hk⟩, List.get_mem _ _ _, ?_, by rw [← ri]; exact hpb⟩
            cases hpo : (dps.get ⟨k, hk⟩).solved with
            | false => rfl
            | true => rw [riff.mpr (Or.inl hpo)] at hpf; cases hpf
        · intro j
          rcases imask j with hj | ⟨hz, p', hp', hpf, hpb⟩
          · rcases hmaskPass j with hj2 | ⟨hz2, hex⟩
            · exact Or.inl (by rw [hj, hj2])
            · exact Or.inr ⟨by rw [hj, hz2], hex⟩
          · obtain ⟨⟨k, hk'⟩, rfl⟩ := List.mem_iff_get.mp hp'
            have hk : k < dps.length := by rw [← hlenR]; exact hk'
            obtain ⟨rx, ry, ri, riff⟩ := hgetR k hk hk'
            refine Or.inr ⟨hz, dps.get ⟨k, hk⟩, List.get_mem _ _ _, ?_, by rw [← ri]; exact hpb⟩
            cases hpo : (dps.get ⟨k, hk⟩).solved with
            | false => rfl
            | true => rw [riff.mpr (Or.inl hpo)] at hpf; cases hpf
/-! ### Process-level support lemmas -/

theorem grid_idx_lt {w h x y : ℕ} (hx : x < w) (hy : y < h) :
    (y * w + x) * 4 + 3 < w * h * 4 := by
  have h1 : y * w + x < h * w := by
    calc y * w + x < y * w + w := by omega
    _ = (y + 1) * w := by ring
    _ ≤ h * w := Nat.mul_le_mul_right w hy
  have h2 : h * w = w * h := Nat.mul_comm h w
  omega

theorem scanDamaged_WF (w h : ℕ) (data mask : Buf) (hd : w * h * 4 ≤ data.size) :
    WF w h data mask (scanDamaged w h mask) := by
  constructor
  · intro p hp
    obtain ⟨hx, hy, hi, hpos, hs⟩ := mem_scanDamaged.mp hp
    have hmsz : (p.y * w + p.x) * 4 + 3 < mask.size := Buf.lt_size_of_get_pos mask hpos
    have hdsz := grid_idx_lt hx hy
    refine ⟨hx, hy, hi, by omega, by omega, fun _ => by rw [hi]; exact hpos, ?_⟩
    intro ht
    rw [hs] at ht
    cases ht
  · exact scanDamaged_nodup_idx w h mask

theorem countFalse_scan (w h : ℕ) (m : Buf) :
    countFalse (scanDamaged w h m) = (scanDamaged w h m).length := by
  apply List.countP_eq_length.mpr
  intro p hp
  simp [scanDamaged_solved_false _ hp]

/-! ### Claims -/

/-- Claim C1, amended: `process` performs no input validation at all.  The
width and height of the mask argument are never read (the scan and the
neighbour tests use the PIXEL buffer dimensions for both buffers), so the
returned image, the mutated mask bytes and both internal counters are
identical for any mask dimensions whatsoever: a dimension mismatch is not
detected, no InvalidInput failure exists, and processing proceeds anyway. -/
theorem process_ignores_mask_dimensions (img : ImageData) (mdata : Buf)
    (mw mh mw' mh' : ℕ) :
    (process img ⟨mw, mh, mdata⟩).image = (process img ⟨mw', mh', mdata⟩).image ∧
    (process img ⟨mw, mh, mdata⟩).maskOut.data = (process img ⟨mw', mh', mdata⟩).maskOut.data ∧
    (process img ⟨mw, mh, mdata⟩).remaining = (process img ⟨mw', mh', mdata⟩).remaining ∧
    (process img ⟨mw, mh, mdata⟩).iterLeft = (process img ⟨mw', mh', mdata⟩).iterLeft :=
  ⟨rfl, rfl, rfl, rfl⟩

/-- Claim C1, counterexample to the claim as stated: a 2×1 pixel buffer
with a 1×1 mask buffer (dimension mismatch, and the mask is shorter than
`width*height*4 = 8`).  `process` does not fail: it resolves the damaged
pixel, mutating both the pixel buffer (byte 0 goes from 10 to 0) and the
mask buffer (alpha byte 3 is cleared from 200 to 0). -/
theorem process_mismatch_mutates :
    (⟨2, 1, bufOfList [10, 10, 10, 255, 0, 0, 0, 255]⟩ : ImageData).width ≠
      (⟨1, 1, bufOfList [0, 0, 0, 200]⟩ : ImageData).width ∧
    (process ⟨2, 1, bufOfList [10, 10, 10, 255, 0, 0, 0, 255]⟩
      ⟨1, 1, bufOfList [0, 0, 0, 200]⟩).image.data.get 0 = 0 ∧
    (⟨2, 1, bufOfList [10, 10, 10, 255, 0, 0, 0, 255]⟩ : ImageData).data.get 0 = 10 ∧
    (process ⟨2, 1, bufOfList [10, 10, 10, 255, 0, 0, 0, 255]⟩
      ⟨1, 1, bufOfList [0, 0, 0, 200]⟩).maskOut.data.get 3 = 0 ∧
    (⟨1, 1, bufOfList [0, 0, 0, 200]⟩ : ImageData).data.get 3 = 200 ∧
    (process ⟨2, 1, bufOfList [10, 10, 10, 255, 0, 0, 0, 255]⟩
      ⟨1, 1, bufOfList [0, 0, 0, 200]⟩).remaining = 0 := by
  decide

theorem process_noop_of_clean_mask (img msk : ImageData)
    (hz : ∀ x, x < img.width → ∀ y, y < img.height →
      msk.data.get ((y * img.width + x) * 4 + 3) = 0) :
    scanDamaged img.width img.height msk.data = [] ∧
    process img msk = ⟨img, msk, 0, 500⟩ := by
  have hscan := scanDamaged_eq_nil hz
  refine ⟨hscan, ?_⟩
  show (⟨{ img with data := (passLoop img.width img.height img.data msk.data
      (scanDamaged img.width img.height msk.data)
      (scanDamaged img.width img.height msk.data).length 500).data },
    { msk with data := (passLoop img.width img.height img.data msk.data
      (scanDamaged img.width img.height msk.data)
      (scanDamaged img.width img.height msk.data).length 500).mask },
    (passLoop img.width img.height img.data msk.data
      (scanDamaged img.width img.height msk.data)
      (scanDamaged img.width img.height msk.data).length 500).remaining,
    (passLoop img.width img.height img.data msk.data
      (scanDamaged img.width img.height msk.data)
      (scanDamaged img.width img.height msk.data).length 500).iterLeft⟩ : ProcessResult) =
    ⟨img, msk, 0, 500⟩
  rw [hscan]
  rw [show ([] : List DP).length = 0 from rfl, passLoop_rem_zero]

/-- Claim C9: when no in-grid pixel of the mask has positive alpha, the
scanner produces the empty record list and `process` is a no-op: it
returns both ImageData values untouched (every byte unchanged), with zero
remaining damage and the iteration budget untouched. -/
theorem process_no_damage_noop (img msk : ImageData)
    (hz : ∀ x, x < img.width → ∀ y, y < img.height →
      msk.data.get ((y * img.width + x) * 4 + 3) = 0) :
    scanDamaged img.width img.height msk.data = [] ∧
    process img msk = ⟨img, msk, 0, 500⟩ :=
  process_noop_of_clean_mask img msk hz

theorem process_no_damage_noop_witness :
    process ⟨1, 1, bufOfList [5, 6, 7, 8]⟩ ⟨1, 1, bufOfList [0, 0, 0, 0]⟩ =
      ⟨⟨1, 1, bufOfList [5, 6, 7, 8]⟩, ⟨1, 1, bufOfList [0, 0, 0, 0]⟩, 0, 500⟩ :=
  (process_no_damage_noop ⟨1, 1, bufOfList [5, 6, 7, 8]⟩ ⟨1, 1, bufOfList [0, 0, 0, 0]⟩
    (by decide)).2

/-- Claim C4: when every in-grid pixel is damaged (mask alpha positive
everywhere) and the image is nonempty, the first pass resolves nothing
(no pixel has a valid neighbour), the loop exits through the stuck break
after exactly one pass (499 iterations left of the 500 budget), the
remaining count equals the total pixel count, and both buffers are
returned byte-for-byte untouched. -/
theorem process_fully_damaged_stuck (img msk : ImageData)
    (hall : ∀ x, x < img.width → ∀ y, y < img.height →
      0 < msk.data.get ((y * img.width + x) * 4 + 3))
    (hpos : 0 < img.width * img.height) :
    process img msk = ⟨img, msk, img.width * img.height, 499⟩ := by
  have hall2 : ∀ x y, x < img.width → y < img.height →
      0 < msk.data.get ((y * img.width + x) * 4 + 3) :=
    fun x y hx hy => hall x hx y hy
  have hlen : (scanDamaged img.width img.height msk.data).length =
      img.height * img.width :=
    scanDamaged_length_allMasked hall2
  have hstuck : runPass img.width img.height msk.data img.data
      (scanDamaged img.width img.height msk.data) =
      ⟨img.data, scanDamaged img.width img.height msk.data, []⟩ := by
    apply runPass_stuck
    intro p hp _
    rw [neighAccum_allMasked img.width img.height img.data msk.data p.x p.y hall2]
  show (⟨{ img with data := (passLoop img.width img.height img.data msk.data
      (scanDamaged img.width img.height msk.data)
      (scanDamaged img.width img.height msk.data).length 500).data },
    { msk with data := (passLoop img.width img.height img.data msk.data
      (scanDamaged img.width img.height msk.data)
      (scanDamaged img.width img.height msk.data).length 500).mask },
    (passLoop img.width img.height img.data msk.data
      (scanDamaged img.width img.height msk.data)
      (scanDamaged img.width img.height msk.data).length 500).remaining,
    (passLoop img.width img.height img.data msk.data
      (scanDamaged img.width img.height msk.data)
      (scanDamaged img.width img.height msk.data).length 500).iterLeft⟩ : ProcessResult) =
    ⟨img, msk, img.width * img.height, 499⟩
  rw [passLoop_step _ _ _ _ _
    (by rw [hlen, Nat.mul_comm img.height img.width]; exact hpos) (by omega), hstuck]
  simp only [List.length_nil, if_pos]
  rw [hlen]
  have hc : commitMask ([] : List DP) msk.data = msk.data := rfl
  rw [hc]
  have hwh : img.height * img.width = img.width * img.height := Nat.mul_comm _ _
  simp [hwh]

theorem process_fully_damaged_stuck_witness :
    process ⟨1, 1, bufOfList [1, 2, 3, 4]⟩ ⟨1, 1, bufOfList [0, 0, 0, 9]⟩ =
      ⟨⟨1, 1, bufOfList [1, 2, 3, 4]⟩, ⟨1, 1, bufOfList [0, 0, 0, 9]⟩, 1, 499⟩ :=
  process_fully_damaged_stuck ⟨1, 1, bufOfList [1, 2, 3, 4]⟩ ⟨1, 1, bufOfList [0, 0, 0, 9]⟩
    (by decide) (by decide)

/-- Claim C7: the fill terminates for every input.  The loop is driven by
the fuel counter initialised to the fixed cap 500 (last conjunct: the
definition of `process` invokes `passLoop` with fuel 500), it exits
immediately when the remaining count is zero (first conjunct, without
consuming fuel), exits when the fuel is exhausted (second conjunct), and
exits right after any pass that resolves zero pixels, consuming a single
unit of fuel (third conjunct, the stuck break). -/
theorem passLoop_cap_and_exits :
    (∀ (w h : ℕ) (data mask : Buf) (dps : List DP) (f : ℕ),
      passLoop w h data mask dps 0 f = ⟨data, mask, dps, 0, f⟩) ∧
    (∀ (w h : ℕ) (data mask : Buf) (dps : List DP) (r : ℕ),
      passLoop w h data mask dps r 0 = ⟨data, mask, dps, r, 0⟩) ∧
    (∀ (w h : ℕ) (data mask : Buf) (dps : List DP) (r f : ℕ),
      0 < r → (runPass w h mask data dps).solved.length = 0 →
      passLoop w h data mask dps r (f + 1) =
        ⟨(runPass w h mask data dps).data, mask, (runPass w h mask data dps).dps, r, f⟩) ∧
    (∀ img msk : ImageData,
      process img msk =
        ⟨{ img with data := (passLoop img.width img.height img.data msk.data
            (scanDamaged img.width img.height msk.data)
            (scanDamaged img.width img.height msk.data).length 500).data },
         { msk with data := (passLoop img.width img.height img.data msk.data
            (scanDamaged img.width img.height msk.data)
            (scanDamaged img.width img.height msk.data).length 500).mask },
         (passLoop img.width img.height img.data msk.data
            (scanDamaged img.width img.height msk.data)
            (scanDamaged img.width img.height msk.data).length 500).remaining,
         (passLoop img.width img.height img.data msk.data
            (scanDamaged img.width img.height msk.data)
            (scanDamaged img.width img.height msk.data).length 500).iterLeft⟩) := by
  refine ⟨passLoop_rem_zero, passLoop_fuel_zero, ?_, fun img msk => rfl⟩
  intro w h data mask dps r f hr hsl
  rw [passLoop_step _ _ _ _ _ hr (by omega)]
  simp only [Nat.add_sub_cancel, if_pos hsl]
  have hsl2 : (runPass w h mask data dps).solved = [] := List.length_eq_zero.mp hsl
  rw [hsl2]
  have hc : commitMask ([] : List DP) mask = mask := rfl
  rw [hc]
  simp

theorem passLoop_cap_and_exits_witness :
    passLoop 1 1 (bufOfList [1, 2, 3, 9]) (bufOfList [0, 0, 0, 7]) [⟨0, 0, 0, false⟩] 1 3 =
      ⟨(runPass 1 1 (bufOfList [0, 0, 0, 7]) (bufOfList [1, 2, 3, 9]) [⟨0, 0, 0, false⟩]).data,
       bufOfList [0, 0, 0, 7],
       (runPass 1 1 (bufOfList [0, 0, 0, 7]) (bufOfList [1, 2, 3, 9]) [⟨0, 0, 0, false⟩]).dps,
       1, 2⟩ :=
  passLoop_cap_and_exits.2.2.1 1 1 (bufOfList [1, 2, 3, 9]) (bufOfList [0, 0, 0, 7])
    [⟨0, 0, 0, false⟩] 1 2 (by decide) (by decide)

/-- Claim C5: within a single pass every pixel sees the pass-entry
snapshot.  The mask is only read during a pass (`runPass` returns no
mask, clearing happens afterwards in the commit step), so whether record
`k` resolves, and the value written for it, are determined by the
neighbour accumulation over the PASS-ENTRY pixel buffer and mask,
regardless of how many earlier records of the same pass were already
resolved and had their pixels overwritten.  In particular a pixel
resolved in this pass is still masked for every other pixel of the pass
and is never counted as a valid neighbour. -/
theorem runPass_snapshot_semantics (w h : ℕ) (mask d : Buf) (dps : List DP)
    (hwf : ∀ p ∈ dps, p.i = (p.y * w + p.x) * 4 ∧
      (p.solved = false → 0 < mask.get (p.i + 3)) ∧ p.i + 3 < d.size)
    (hnd : (dps.map (fun p => p.i)).Nodup) :
    ∀ k, k < dps.length →
      ((dpAt (runPass w h mask d dps).dps k).solved = true ↔
        ((dpAt dps k).solved = true ∨
          0 < (neighAccum w h d mask (dpAt dps k).x (dpAt dps k).y).count)) ∧
      ((dpAt dps k).solved = false →
        0 < (neighAccum w h d mask (dpAt dps k).x (dpAt dps k).y).count →
        ((runPass w h mask d dps).data.get ((dpAt dps k).i) =
            min (rheDiv (neighAccum w h d mask (dpAt dps k).x (dpAt dps k).y).r
              (neighAccum w h d mask (dpAt dps k).x (dpAt dps k).y).count) 255 ∧
          (runPass w h mask d dps).data.get ((dpAt dps k).i + 1) =
            min (rheDiv (neighAccum w h d mask (dpAt dps k).x (dpAt dps k).y).g
              (neighAccum w h d mask (dpAt dps k).x (dpAt dps k).y).count) 255 ∧
          (runPass w h mask d dps).data.get ((dpAt dps k).i + 2) =
            min (rheDiv (neighAccum w h d mask (dpAt dps k).x (dpAt dps k).y).b
              (neighAccum w h d mask (dpAt dps k).x (dpAt dps k).y).count) 255 ∧
          (runPass w h mask d dps).data.get ((dpAt dps k).i + 3) = 255)) := by
  intro k hk
  have hwfw : ∀ p ∈ dps, p.i = (p.y * w + p.x) * 4 ∧
      (p.solved = false → 0 < mask.get (p.i + 3)) :=
    fun p hp => ⟨(hwf p hp).1, (hwf p hp).2.1⟩
  obtain ⟨hlen, hget⟩ := runPass_fields w h mask d dps d (agree_self _ _ _ _) hwfw
  have hkR : k < (runPass w h mask d dps).dps.length := by rw [hlen]; exact hk
  constructor
  · rw [dpAt_eq_get hk, dpAt_eq_get hkR]
    exact (hget k hk hkR).2.2.2
  · rw [dpAt_eq_get hk]
    intro hsf hcnt
    exact runPass_values w h mask d dps d (agree_self _ _ _ _) hwf hnd k hk hsf hcnt

theorem runPass_snapshot_semantics_witness :
    (runPass 2 1 (bufOfList [0, 0, 0, 5, 0, 0, 0, 0])
      (bufOfList [10, 10, 10, 255, 9, 8, 7, 255]) [⟨0, 0, 0, false⟩]).data.get 0 = 9 := by
  have hmain := runPass_snapshot_semantics 2 1 (bufOfList [0, 0, 0, 5, 0, 0, 0, 0])
    (bufOfList [10, 10, 10, 255, 9, 8, 7, 255]) [⟨0, 0, 0, false⟩]
    (by decide) (by decide) 0 (by decide)
  exact ((hmain.2 (by decide) (by decide)).1).trans (by decide)

/-- Claim C6: every record produced by the scan starts with
`solved = false`; the `solved` flag is monotone across the loop (so it
flips to `true` at most once); once a record is solved its mask alpha is
zero at every later loop boundary (the pass that resolves it clears the
alpha in the commit step, and nothing ever writes a nonzero alpha), and
its four pixel bytes are never rewritten by any later pass.  The theorem
is stated for an arbitrary loop state satisfying the working invariant,
so it applies at every pass boundary of a `process` call. -/
theorem records_solved_once_and_frozen (w h : ℕ) (data mask : Buf) (dps : List DP)
    (remaining fuel : ℕ) (hwf : WF w h data mask dps)
    (hrem : remaining = countFalse dps) :
    (∀ p ∈ scanDamaged w h mask, p.solved = false) ∧
    (∀ k, k < dps.length →
      ((dpAt dps k).solved = true →
        (dpAt (passLoop w h data mask dps remaining fuel).dps k).solved = true ∧
        (∀ c, c < 4 →
          (passLoop w h data mask dps remaining fuel).data.get ((dpAt dps k).i + c) =
            data.get ((dpAt dps k).i + c)) ∧
        (passLoop w h data mask dps remaining fuel).mask.get ((dpAt dps k).i + 3) = 0) ∧
      ((dpAt (passLoop w h data mask dps remaining fuel).dps k).solved = true →
        (passLoop w h data mask dps remaining fuel).mask.get ((dpAt dps k).i + 3) = 0)) := by
  obtain ⟨oWF, _, _, olen, _, ofields, oframe, _, _⟩ :=
    passLoop_master w h fuel data mask dps remaining hwf hrem
  refine ⟨scanDamaged_solved_false, ?_⟩
  intro k hk
  have hkO : k < (passLoop w h data mask dps remaining fuel).dps.length := by
    rw [olen]; exact hk
  have hmem : dpAt (passLoop w h data mask dps remaining fuel).dps k ∈
      (passLoop w h data mask dps remaining fuel).dps := by
    rw [dpAt_eq_get hkO]
    exact List.get_mem _ _ _
  have hi : (dpAt (passLoop w h data mask dps remaining fuel).dps k).i = (dpAt dps k).i :=
    (ofields k hk).2.2.1
  constructor
  · intro hs
    have hsolv := (ofields k hk).2.2.2 hs
    refine ⟨hsolv, oframe k hk hs, ?_⟩
    have hcl := (oWF.1 _ hmem).2.2.2.2.2.2 hsolv
    rw [hi] at hcl
    exact hcl
  · intro hs
    have hcl := (oWF.1 _ hmem).2.2.2.2.2.2 hs
    rw [hi] at hcl
    exact hcl

theorem records_solved_once_and_frozen_witness :
    (passLoop 1 1 (bufOfList [5, 6, 7, 255]) (bufOfList [0, 0, 0, 0])
      [⟨0, 0, 0, true⟩] 0 5).data.get 0 = 5 := by
  have hmain := records_solved_once_and_frozen 1 1 (bufOfList [5, 6, 7, 255])
    (bufOfList [0, 0, 0, 0]) [⟨0, 0, 0, true⟩] 0 5 ⟨by decide, by decide⟩ (by decide)
  exact (((hmain.2 0 (by decide)).1 (by decide)).2.1 0 (by decide)).trans (by decide)

/-- Claim C10: frame property.  Every pixel whose mask alpha is zero at
the start of the call keeps all four of its bytes in the pixel buffer and
all four of its bytes in the mask buffer unchanged; and in the mask
buffer the only bytes ever written are the alpha bytes (index 3 mod 4) of
scanned damaged pixels, and the written value is always 0. -/
theorem process_frame_unmasked (img msk : ImageData)
    (hd : img.width * img.height * 4 ≤ img.data.size) :
    (∀ x y, x < img.width → y < img.height →
      msk.data.get ((y * img.width + x) * 4 + 3) = 0 →
      ∀ c, c < 4 →
        (process img msk).image.data.get ((y * img.width + x) * 4 + c) =
          img.data.get ((y * img.width + x) * 4 + c) ∧
        (process img msk).maskOut.data.get ((y * img.width + x) * 4 + c) =
          msk.data.get ((y * img.width + x) * 4 + c)) ∧
    (∀ j, (process img msk).maskOut.data.get j ≠ msk.data.get j →
      j % 4 = 3 ∧ (process img msk).maskOut.data.get j = 0 ∧
      ∃ p ∈ scanDamaged img.width img.height msk.data, j = p.i + 3) := by
  have hWFs := scanDamaged_WF img.width img.height img.data msk.data hd
  have hrem := (countFalse_scan img.width img.height msk.data).symm
  obtain ⟨oWF, _, _, _, _, _, _, odata, omask⟩ :=
    passLoop_master img.width img.height 500 img.data msk.data
      (scanDamaged img.width img.height msk.data)
      (scanDamaged img.width img.height msk.data).length hWFs hrem
  constructor
  · intro x y hx hy hz c hc
    constructor
    · rcases odata ((y * img.width + x) * 4 + c) with he | ⟨p, hp, hpf, hpb⟩
      · exact he
      · exfalso
        obtain ⟨hx', hy', hi', hpos', hs'⟩ := mem_scanDamaged.mp hp
        unfold inBlock at hpb
        rw [hi'] at hpb
        have hpix : y * img.width + x = p.y * img.width + p.x := by omega
        rw [← hpix] at hpos'
        omega
    · rcases omask ((y * img.width + x) * 4 + c) with he | ⟨hzv, p, hp, hpf, hpb⟩
      · exact he
      · exfalso
        obtain ⟨hx', hy', hi', hpos', hs'⟩ := mem_scanDamaged.mp hp
        rw [hi'] at hpb
        have hpix : c = 3 ∧ y * img.width + x = p.y * img.width + p.x := by omega
        rw [← hpix.2] at hpos'
        omega
  · intro j hne
    rcases omask j with he | ⟨hzv, p, hp, hpf, hpb⟩
    · exact absurd he hne
    · obtain ⟨hx', hy', hi', hpos', hs'⟩ := mem_scanDamaged.mp hp
      refine ⟨?_, hzv, p, hp, hpb⟩
      rw [hpb, hi']
      omega

theorem process_frame_unmasked_witness :
    (process ⟨2, 1, bufOfList [10, 10, 10, 255, 9, 8, 7, 255]⟩
      ⟨2, 1, bufOfList [0, 0, 0, 5, 0, 0, 0, 0]⟩).image.data.get 4 = 9 := by
  have hmain := process_frame_unmasked ⟨2, 1, bufOfList [10, 10, 10, 255, 9, 8, 7, 255]⟩
    ⟨2, 1, bufOfList [0, 0, 0, 5, 0, 0, 0, 0]⟩ (by decide)
  exact ((hmain.1 1 0 (by decide) (by decide) (by decide) 0 (by decide)).1).trans (by decide)

/-- Claim C8: when a `process` call fully resolves every damaged pixel
(`remaining = 0`), the mask buffer it returns has no pixel with positive
alpha, so running `process` again on the returned buffers scans nothing
and is a complete no-op: it returns the same image and mask untouched.
Fill-twice is therefore equivalent to fill-once on such inputs. -/
theorem process_idempotent_when_resolved (img msk : ImageData)
    (hd : img.width * img.height * 4 ≤ img.data.size)
    (hfull : (process img msk).remaining = 0) :
    process (process img msk).image (process img msk).maskOut =
      ⟨(process img msk).image, (process img msk).maskOut, 0, 500⟩ := by
  have hWFs := scanDamaged_WF img.width img.height img.data msk.data hd
  have hrem := (countFalse_scan img.width img.height msk.data).symm
  obtain ⟨oWF, _, _, olen, orem, ofields, _, _, omask⟩ :=
    passLoop_master img.width img.height 500 img.data msk.data
      (scanDamaged img.width img.height msk.data)
      (scanDamaged img.width img.height msk.data).length hWFs hrem
  have hall : ∀ p ∈ (passLoop img.width img.height img.data msk.data
      (scanDamaged img.width img.height msk.data)
      (scanDamaged img.width img.height msk.data).length 500).dps, p.solved = true := by
    apply countFalse_eq_zero.mp
    rw [← orem]
    exact hfull
  have hzero : ∀ x, x < img.width → ∀ y, y < img.height →
      (process img msk).maskOut.data.get ((y * img.width + x) * 4 + 3) = 0 := by
    intro x hx y hy
    by_cases hpos : 0 < msk.data.get ((y * img.width + x) * 4 + 3)
    · have hpmem : (⟨x, y, (y * img.width + x) * 4, false⟩ : DP) ∈
          scanDamaged img.width img.height msk.data := by
        rw [mem_scanDamaged]
        exact ⟨hx, hy, rfl, hpos, rfl⟩
      obtain ⟨⟨k, hk⟩, hgetk⟩ := List.mem_iff_get.mp hpmem
      have hkO : k < (passLoop img.width img.height img.data msk.data
          (scanDamaged img.width img.height msk.data)
          (scanDamaged img.width img.height msk.data).length 500).dps.length := by
        rw [olen]; exact hk
      have hmemO : dpAt (passLoop img.width img.height img.data msk.data
          (scanDamaged img.width img.height msk.data)
          (scanDamaged img.width img.height msk.data).length 500).dps k ∈
          (passLoop img.width img.height img.data msk.data
          (scanDamaged img.width img.height msk.data)
          (scanDamaged img.width img.height msk.data).length 500).dps := by
        rw [dpAt_eq_get hkO]
        exact List.get_mem _ _ _
      have hsolvO := hall _ hmemO
      have hiO := (ofields k hk).2.2.1
      have hcl := (oWF.1 _ hmemO).2.2.2.2.2.2 hsolvO
      rw [hiO, dpAt_eq_get hk, hgetk] at hcl
      exact hcl
    · have hz0 : msk.data.get ((y * img.width + x) * 4 + 3) = 0 := by omega
      rcases omask ((y * img.width + x) * 4 + 3) with he | ⟨hzv, _⟩
      · exact he.trans hz0
      · exact hzv
  exact (process_noop_of_clean_mask (process img msk).image (process img msk).maskOut
    hzero).2

theorem process_idempotent_when_resolved_witness :
    process (process ⟨2, 1, bufOfList [10, 10, 10, 255, 9, 8, 7, 255]⟩
        ⟨2, 1, bufOfList [0, 0, 0, 5, 0, 0, 0, 0]⟩).image
      (process ⟨2, 1, bufOfList [10, 10, 10, 255, 9, 8, 7, 255]⟩
        ⟨2, 1, bufOfList [0, 0, 0, 5, 0, 0, 0, 0]⟩).maskOut =
    ⟨(process ⟨2, 1, bufOfList [10, 10, 10, 255, 9, 8, 7, 255]⟩
        ⟨2, 1, bufOfList [0, 0, 0, 5, 0, 0, 0, 0]⟩).image,
     (process ⟨2, 1, bufOfList [10, 10, 10, 255, 9, 8, 7, 255]⟩
        ⟨2, 1, bufOfList [0, 0, 0, 5, 0, 0, 0, 0]⟩).maskOut, 0, 500⟩ :=
  process_idempotent_when_resolved ⟨2, 1, bufOfList [10, 10, 10, 255, 9, 8, 7, 255]⟩
    ⟨2, 1, bufOfList [0, 0, 0, 5, 0, 0, 0, 0]⟩ (by decide) (by decide)

/-! ### A 3×3 image with only the centre damaged (C2), and a corner-damaged
image (C3) -/

theorem bufOfList_get_le (l : List ℕ) (h255 : ∀ v ∈ l, v ≤ 255) (i : ℕ) :
    (bufOfList l).get i ≤ 255 := by
  unfold bufOfList Buf.get
  dsimp only
  split
  · next hi =>
    rw [List.getD_eq_get _ _ hi]
    exact h255 _ (List.get_mem _ _ _)
  · omega

set_option maxHeartbeats 1600000 in
/-- Claim C2, amended (the rounding is the only change): in a 3×3 image
whose mask marks exactly the centre pixel, `process` resolves the centre
in one pass, writing for each RGB channel the unweighted mean `sum/8` of
the 8 surrounding pixels rounded to the nearest byte with ties to even
(the `Uint8ClampedArray` store of the JS float `sum/count`), sets the
centre alpha to 255, and finishes with zero remaining damage after one
pass (499 of the 500 iterations left). -/
theorem process_center_mean_rounded (d m : Buf) (hd : d.size = 36)
    (hbytes : ∀ i, d.get i ≤ 255)
    (hma : ∀ j, j < 9 → j ≠ 4 → m.get (j * 4 + 3) = 0)
    (hc : 0 < m.get 19) :
    (process ⟨3, 3, d⟩ ⟨3, 3, m⟩).image.data.get 16 =
      rheDiv (d.get 0 + d.get 4 + d.get 8 + d.get 12 + d.get 20 + d.get 24 + d.get 28 +
        d.get 32) 8 ∧
    (process ⟨3, 3, d⟩ ⟨3, 3, m⟩).image.data.get 17 =
      rheDiv (d.get 1 + d.get 5 + d.get 9 + d.get 13 + d.get 21 + d.get 25 + d.get 29 +
        d.get 33) 8 ∧
    (process ⟨3, 3, d⟩ ⟨3, 3, m⟩).image.data.get 18 =
      rheDiv (d.get 2 + d.get 6 + d.get 10 + d.get 14 + d.get 22 + d.get 26 + d.get 30 +
        d.get 34) 8 ∧
    (process ⟨3, 3, d⟩ ⟨3, 3, m⟩).image.data.get 19 = 255 ∧
    (process ⟨3, 3, d⟩ ⟨3, 3, m⟩).remaining = 0 ∧
    (process ⟨3, 3, d⟩ ⟨3, 3, m⟩).iterLeft = 499 := by
  have h0 := hma 0 (by omega) (by omega)
  have h1 := hma 1 (by omega) (by omega)
  have h2 := hma 2 (by omega) (by omega)
  have h3 := hma 3 (by omega) (by omega)
  have h5 := hma 5 (by omega) (by omega)
  have h6 := hma 6 (by omega) (by omega)
  have h7 := hma 7 (by omega) (by omega)
  have h8 := hma 8 (by omega) (by omega)
  norm_num at h0 h1 h2 h3 h5 h6 h7 h8
  have hscan : scanDamaged 3 3 m = [⟨1, 1, 16, false⟩] := by
    simp [scanDamaged, show List.range 3 = [0, 1, 2] from rfl, h0, h1, h2, h3, h5, h6,
      h7, h8, hc]
  have hacc : neighAccum 3 3 d m 1 1 =
      ⟨d.get 0 + d.get 4 + d.get 8 + d.get 12 + d.get 20 + d.get 24 + d.get 28 + d.get 32,
       d.get 1 + d.get 5 + d.get 9 + d.get 13 + d.get 21 + d.get 25 + d.get 29 + d.get 33,
       d.get 2 + d.get 6 + d.get 10 + d.get 14 + d.get 22 + d.get 26 + d.get 30 + d.get 34,
       8⟩ := by
    simp [neighAccum, offsets, neighStep, h0, h1, h2, h3, h5, h6, h7, h8]
  have hrp : runPass 3 3 m d [⟨1, 1, 16, false⟩] =
      ⟨writeBlock d 16 (neighAccum 3 3 d m 1 1), [⟨1, 1, 16, true⟩], [⟨1, 1, 16, true⟩]⟩ :=
    runPass_singleton_pos 3 3 m d ⟨1, 1, 16, false⟩ rfl
      (by show 0 < (neighAccum 3 3 d m 1 1).count; rw [hacc]; exact Nat.succ_pos 7)
  have hloop : passLoop 3 3 d m [⟨1, 1, 16, false⟩] 1 500 =
      ⟨writeBlock d 16 (neighAccum 3 3 d m 1 1), commitMask [⟨1, 1, 16, true⟩] m,
       [⟨1, 1, 16, true⟩], 0, 499⟩ := by
    rw [passLoop_step _ _ _ _ _ (by omega) (by omega), hrp]
    simp only [List.length_cons, List.length_nil]
    rw [if_neg (by omega : ¬ (0 + 1 = 0))]
    rw [show (1 : ℕ) - (0 + 1) = 0 from rfl, show (500 : ℕ) - 1 = 499 from rfl,
      passLoop_rem_zero]
  have hproc : process ⟨3, 3, d⟩ ⟨3, 3, m⟩ =
      ⟨⟨3, 3, writeBlock d 16 (neighAccum 3 3 d m 1 1)⟩,
       ⟨3, 3, commitMask [⟨1, 1, 16, true⟩] m⟩, 0, 499⟩ := by
    show (⟨⟨3, 3, (passLoop 3 3 d m (scanDamaged 3 3 m) (scanDamaged 3 3 m).length 500).data⟩,
      ⟨3, 3, (passLoop 3 3 d m (scanDamaged 3 3 m) (scanDamaged 3 3 m).length 500).mask⟩,
      (passLoop 3 3 d m (scanDamaged 3 3 m) (scanDamaged 3 3 m).length 500).remaining,
      (passLoop 3 3 d m (scanDamaged 3 3 m) (scanDamaged 3 3 m).length 500).iterLeft⟩ :
        ProcessResult) = _
    rw [hscan, show ([⟨1, 1, 16, false⟩] : List DP).length = 1 from rfl, hloop]
  obtain ⟨v0, v1, v2, v3⟩ := writeBlock_get_values d 16 (neighAccum 3 3 d m 1 1) (by omega)
  rw [hacc] at v0 v1 v2 v3
  dsimp only at v0 v1 v2 v3
  have hb : ∀ i1 i2 i3 i4 i5 i6 i7 i8 : ℕ,
      d.get i1 + d.get i2 + d.get i3 + d.get i4 + d.get i5 + d.get i6 + d.get i7 +
        d.get i8 ≤ 255 * 8 := by
    intro i1 i2 i3 i4 i5 i6 i7 i8
    have b1 := hbytes i1
    have b2 := hbytes i2
    have b3 := hbytes i3
    have b4 := hbytes i4
    have b5 := hbytes i5
    have b6 := hbytes i6
    have b7 := hbytes i7
    have b8 := hbytes i8
    omega
  rw [hacc] at hproc
  rw [hproc]
  exact ⟨v0.trans (Nat.min_eq_left (rheDiv_le_255 (by omega) (hb 0 4 8 12 20 24 28 32))),
    v1.trans (Nat.min_eq_left (rheDiv_le_255 (by omega) (hb 1 5 9 13 21 25 29 33))),
    v2.trans (Nat.min_eq_left (rheDiv_le_255 (by omega) (hb 2 6 10 14 22 26 30 34))),
    v3, rfl, rfl⟩

theorem process_center_mean_rounded_witness :
    (process ⟨3, 3, bufOfList
        [1, 8, 0, 255, 2, 8, 1, 255, 3, 8, 1, 255,
         4, 8, 2, 255, 9, 9, 9, 9, 5, 8, 2, 255,
         6, 8, 3, 255, 7, 8, 3, 255, 4, 8, 0, 255]⟩
      ⟨3, 3, bufOfList
        [0, 0, 0, 0, 0, 0, 0, 0, 0, 0, 0, 0,
         0, 0, 0, 0, 0, 0, 0, 50, 0, 0, 0, 0,
         0, 0, 0, 0, 0, 0, 0, 0, 0, 0, 0, 0]⟩).image.data.get 16 = 4 := by
  have hmain := process_center_mean_rounded (bufOfList
        [1, 8, 0, 255, 2, 8, 1, 255, 3, 8, 1, 255,
         4, 8, 2, 255, 9, 9, 9, 9, 5, 8, 2, 255,
         6, 8, 3, 255, 7, 8, 3, 255, 4, 8, 0, 255])
      (bufOfList
        [0, 0, 0, 0, 0, 0, 0, 0, 0, 0, 0, 0,
         0, 0, 0, 0, 0, 0, 0, 50, 0, 0, 0, 0,
         0, 0, 0, 0, 0, 0, 0, 0, 0, 0, 0, 0])
      (by decide) (bufOfList_get_le _ (by decide)) (by decide) (by decide)
  exact hmain.1.trans (by decide)

/-- Claim C2, counterexample to the claim as stated: a 3×3 image whose 8
valid neighbours have blue channels 0,1,1,2,2,3,3,0 (sum 12).  The exact
per-channel mean is 12/8 = 1.5, which is not a byte; `process` stores 2
(nearest, ties to even).  The stored byte times 8 is 16 ≠ 12, so the
stored value is NOT the exact mean, and it is not the truncated quotient
12/8 = 1 either. -/
theorem process_center_mean_not_exact :
    (process ⟨3, 3, bufOfList
        [1, 8, 0, 255, 2, 8, 1, 255, 3, 8, 1, 255,
         4, 8, 2, 255, 9, 9, 9, 9, 5, 8, 2, 255,
         6, 8, 3, 255, 7, 8, 3, 255, 4, 8, 0, 255]⟩
      ⟨3, 3, bufOfList
        [0, 0, 0, 0, 0, 0, 0, 0, 0, 0, 0, 0,
         0, 0, 0, 0, 0, 0, 0, 50, 0, 0, 0, 0,
         0, 0, 0, 0, 0, 0, 0, 0, 0, 0, 0, 0]⟩).image.data.get 18 = 2 ∧
    (⟨3, 3, bufOfList
        [1, 8, 0, 255, 2, 8, 1, 255, 3, 8, 1, 255,
         4, 8, 2, 255, 9, 9, 9, 9, 5, 8, 2, 255,
         6, 8, 3, 255, 7, 8, 3, 255, 4, 8, 0, 255]⟩ : ImageData).data.get 2 +
      (⟨3, 3, bufOfList
        [1, 8, 0, 255, 2, 8, 1, 255, 3, 8, 1, 255,
         4, 8, 2, 255, 9, 9, 9, 9, 5, 8, 2, 255,
         6, 8, 3, 255, 7, 8, 3, 255, 4, 8, 0, 255]⟩ : ImageData).data.get 6 +
      (⟨3, 3, bufOfList
        [1, 8, 0, 255, 2, 8, 1, 255, 3, 8, 1, 255,
         4, 8, 2, 255, 9, 9, 9, 9, 5, 8, 2, 255,
         6, 8, 3, 255, 7, 8, 3, 255, 4, 8, 0, 255]⟩ : ImageData).data.get 10 +
      (⟨3, 3, bufOfList
        [1, 8, 0, 255, 2, 8, 1, 255, 3, 8, 1, 255,
         4, 8, 2, 255, 9, 9, 9, 9, 5, 8, 2, 255,
         6, 8, 3, 255, 7, 8, 3, 255, 4, 8, 0, 255]⟩ : ImageData).data.get 14 +
      (⟨3, 3, bufOfList
        [1, 8, 0, 255, 2, 8, 1, 255, 3, 8, 1, 255,
         4, 8, 2, 255, 9, 9, 9, 9, 5, 8, 2, 255,
         6, 8, 3, 255, 7, 8, 3, 255, 4, 8, 0, 255]⟩ : ImageData).data.get 22 +
      (⟨3, 3, bufOfList
        [1, 8, 0, 255, 2, 8, 1, 255, 3, 8, 1, 255,
         4, 8, 2, 255, 9, 9, 9, 9, 5, 8, 2, 255,
         6, 8, 3, 255, 7, 8, 3, 255, 4, 8, 0, 255]⟩ : ImageData).data.get 26 +
      (⟨3, 3, bufOfList
        [1, 8, 0, 255, 2, 8, 1, 255, 3, 8, 1, 255,
         4, 8, 2, 255, 9, 9, 9, 9, 5, 8, 2, 255,
         6, 8, 3, 255, 7, 8, 3, 255, 4, 8, 0, 255]⟩ : ImageData).data.get 30 +
      (⟨3, 3, bufOfList
        [1, 8, 0, 255, 2, 8, 1, 255, 3, 8, 1, 255,
         4, 8, 2, 255, 9, 9, 9, 9, 5, 8, 2, 255,
         6, 8, 3, 255, 7, 8, 3, 255, 4, 8, 0, 255]⟩ : ImageData).data.get 34 = 12 ∧
    2 * 8 ≠ 12 ∧ (12 : ℕ) / 8 ≠ 2 := by
  decide

set_option maxHeartbeats 1600000 in
/-- Claim C3: in any image of width and height at least 2 in which only
the top-left pixel is damaged, the corner resolves to the byte-rounded
mean of EXACTLY its 3 in-bounds valid neighbours: right (byte offset 4),
below (offset w*4) and diagonal (offset (w+1)*4).  The five out-of-bounds
offsets are excluded: they are not counted in the denominator (which is
exactly 3), contribute nothing to the sums, and cause no error; the call
completes with zero remaining damage. -/
theorem process_corner_three_neighbors (w h : ℕ) (d m : Buf) (hw : 2 ≤ w) (hh : 2 ≤ h)
    (hd : d.size = w * h * 4)
    (hbytes : ∀ i, d.get i ≤ 255)
    (hz : ∀ x, x < w → ∀ y, y < h → ¬(x = 0 ∧ y = 0) → m.get ((y * w + x) * 4 + 3) = 0)
    (hc : 0 < m.get 3) :
    (process ⟨w, h, d⟩ ⟨w, h, m⟩).image.data.get 0 =
      rheDiv (d.get 4 + d.get (w * 4) + d.get ((w + 1) * 4)) 3 ∧
    (process ⟨w, h, d⟩ ⟨w, h, m⟩).image.data.get 1 =
      rheDiv (d.get 5 + d.get (w * 4 + 1) + d.get ((w + 1) * 4 + 1)) 3 ∧
    (process ⟨w, h, d⟩ ⟨w, h, m⟩).image.data.get 2 =
      rheDiv (d.get 6 + d.get (w * 4 + 2) + d.get ((w + 1) * 4 + 2)) 3 ∧
    (process ⟨w, h, d⟩ ⟨w, h, m⟩).image.data.get 3 = 255 ∧
    (process ⟨w, h, d⟩ ⟨w, h, m⟩).remaining = 0 := by
  have hscan : scanDamaged w h m = [⟨0, 0, 0, false⟩] := by
    rw [scanDamaged_eq_rows]
    obtain ⟨h1, rfl⟩ : ∃ h1, h = h1 + 1 := ⟨h - 1, by omega⟩
    rw [List.range_succ_eq_map, List.flatMap_cons]
    have hrows : (List.map Nat.succ (List.range h1)).flatMap (fun y => rowScan w y m) =
        [] := by
      rw [List.flatMap_eq_nil_iff]
      intro y hy
      simp only [List.mem_map, List.mem_range] at hy
      obtain ⟨y', hy', rfl⟩ := hy
      unfold rowScan
      rw [List.filterMap_eq_nil_iff]
      intro x hx
      rw [List.mem_range] at hx
      have hzv := hz x hx (Nat.succ y') (by omega) (by omega)
      simp [hzv]
    rw [hrows, List.append_nil]
    unfold rowScan
    obtain ⟨w1, rfl⟩ : ∃ w1, w = w1 + 1 := ⟨w - 1, by omega⟩
    rw [List.range_succ_eq_map, List.filterMap_cons]
    have htail : List.filterMap (fun x =>
        let i := (0 * (w1 + 1) + x) * 4
        if 0 < m.get (i + 3) then some (⟨x, 0, i, false⟩ : DP) else none)
        (List.map Nat.succ (List.range w1)) = [] := by
      rw [List.filterMap_eq_nil_iff]
      intro x hx
      simp only [List.mem_map, List.mem_range] at hx
      obtain ⟨x', hx', rfl⟩ := hx
      have hzv := hz (Nat.succ x') (by omega) 0 (by omega) (by simp)
      norm_num at hzv
      simp [hzv]
    rw [htail]
    simp [hc]
  have hacc : neighAccum w h d m 0 0 =
      ⟨d.get 4 + d.get (w * 4) + d.get ((w + 1) * 4),
       d.get 5 + d.get (w * 4 + 1) + d.get ((w + 1) * 4 + 1),
       d.get 6 + d.get (w * 4 + 2) + d.get ((w + 1) * 4 + 2),
       3⟩ := by
    have hz10 := hz 1 (by omega) 0 (by omega) (by omega)
    have hz01 := hz 0 (by omega) 1 (by omega) (by omega)
    have hz11 := hz 1 (by omega) 1 (by omega) (by omega)
    norm_num at hz10 hz01 hz11
    have hwz : (1 : ℤ) < (w : ℤ) := by exact_mod_cast (by omega : (1 : ℕ) < w)
    have hhz : (1 : ℤ) < (h : ℤ) := by exact_mod_cast (by omega : (1 : ℕ) < h)
    have hw0 : (0 : ℤ) < (w : ℤ) := by omega
    have hh0 : (0 : ℤ) < (h : ℤ) := by omega
    simp [neighAccum, offsets, neighStep, hz10, hz01, hz11, hwz, hhz, hw0, hh0]
  have hrp : runPass w h m d [⟨0, 0, 0, false⟩] =
      ⟨writeBlock d 0 (neighAccum w h d m 0 0), [⟨0, 0, 0, true⟩], [⟨0, 0, 0, true⟩]⟩ :=
    runPass_singleton_pos w h m d ⟨0, 0, 0, false⟩ rfl
      (by show 0 < (neighAccum w h d m 0 0).count; rw [hacc]; exact Nat.succ_pos 2)
  have hloop : passLoop w h d m [⟨0, 0, 0, false⟩] 1 500 =
      ⟨writeBlock d 0 (neighAccum w h d m 0 0), commitMask [⟨0, 0, 0, true⟩] m,
       [⟨0, 0, 0, true⟩], 0, 499⟩ := by
    rw [passLoop_step _ _ _ _ _ (by omega) (by omega), hrp]
    simp only [List.length_cons, List.length_nil]
    rw [if_neg (by omega : ¬ (0 + 1 = 0))]
    rw [show (1 : ℕ) - (0 + 1) = 0 from rfl, show (500 : ℕ) - 1 = 499 from rfl,
      passLoop_rem_zero]
  have hproc : process ⟨w, h, d⟩ ⟨w, h, m⟩ =
      ⟨⟨w, h, writeBlock d 0 (neighAccum w h d m 0 0)⟩,
       ⟨w, h, commitMask [⟨0, 0, 0, true⟩] m⟩, 0, 499⟩ := by
    show (⟨⟨w, h, (passLoop w h d m (scanDamaged w h m) (scanDamaged w h m).length 500).data⟩,
      ⟨w, h, (passLoop w h d m (scanDamaged w h m) (scanDamaged w h m).length 500).mask⟩,
      (passLoop w h d m (scanDamaged w h m) (scanDamaged w h m).length 500).remaining,
      (passLoop w h d m (scanDamaged w h m) (scanDamaged w h m).length 500).iterLeft⟩ :
        ProcessResult) = _
    rw [hscan, show ([⟨0, 0, 0, false⟩] : List DP).length = 1 from rfl, hloop]
  have hsz : (0 : ℕ) + 3 < d.size := by
    have h4 : 4 ≤ w * h := Nat.mul_le_mul hw hh
    omega
  obtain ⟨v0, v1, v2, v3⟩ := writeBlock_get_values d 0 (neighAccum w h d m 0 0) hsz
  rw [hacc] at v0 v1 v2 v3
  dsimp only at v0 v1 v2 v3
  norm_num at v0 v1 v2 v3
  have hb : ∀ i1 i2 i3 : ℕ, d.get i1 + d.get i2 + d.get i3 ≤ 255 * 3 := by
    intro i1 i2 i3
    have b1 := hbytes i1
    have b2 := hbytes i2
    have b3 := hbytes i3
    omega
  rw [hacc] at hproc
  rw [hproc]
  exact ⟨v0.trans (Nat.min_eq_left (rheDiv_le_255 (by omega) (hb _ _ _))),
    v1.trans (Nat.min_eq_left (rheDiv_le_255 (by omega) (hb _ _ _))),
    v2.trans (Nat.min_eq_left (rheDiv_le_255 (by omega) (hb _ _ _))),
    v3, rfl⟩

theorem process_corner_three_neighbors_witness :
    (process ⟨2, 2, bufOfList
        [9, 9, 9, 9, 3, 6, 9, 255, 4, 7, 0, 255, 5, 8, 3, 255]⟩
      ⟨2, 2, bufOfList
        [0, 0, 0, 80, 0, 0, 0, 0, 0, 0, 0, 0, 0, 0, 0, 0]⟩).image.data.get 0 = 4 := by
  have hmain := process_corner_three_neighbors 2 2
    (bufOfList [9, 9, 9, 9, 3, 6, 9, 255, 4, 7, 0, 255, 5, 8, 3, 255])
    (bufOfList [0, 0, 0, 80, 0, 0, 0, 0, 0, 0, 0, 0, 0, 0, 0, 0])
    (by decide) (by decide) (by decide) (bufOfList_get_le _ (by decide))
    (by decide) (by decide)
  exact hmain.1.trans (by decide)

end Inpaint
